import Mathlib

/-!
Verification of the PBD (Printf Based Debugger) variable-change monitor.

This file gives a shallow embedding, in Lean 4, of the core routines of the
PBD repository (src/variable.c, src/breakpoint.c, src/analysis.c, src/line.c,
src/main.c) and proves or refutes the specification claims about them.

Byte images of child memory are modelled as `List Nat` with every entry
below 256; 64-bit machine words are modelled as `Nat` combined from bytes in
little-endian order, which matches the x86_64-only reading the C source
performs (see the endianness note on offmemcmp_generic in variable.c).
-/

namespace PBD


/-! Constants, taken literally from dwarf_helper.h, pbd.h and breakpoint.h. -/

def VLOCAL : Nat := 0x1

def VGLOBAL : Nat := 0x2

def TBASE_TYPE : Nat := 0x1

def TARRAY : Nat := 0x2

def TSTRUCTURE : Nat := 0x4

def TUNION : Nat := 0x8

def TENUM : Nat := 0x10

def TPOINTER : Nat := 0x20

def LBEGIN_STMT : Nat := 0x1

def LEND_SEQ : Nat := 0x2

def LBLOCK : Nat := 0x4

def ENC_UNKNOWN : Nat := 0x1

def ENC_SIGNED : Nat := 0x2

def ENC_UNSIGNED : Nat := 0x4

def ENC_FLOAT : Nat := 0x10

def ENC_POINTER : Nat := 0x20

def MATRIX_MAX_DIMENSIONS : Nat := 8

def FLG_SHOW_LINES : Nat := 0x01

def FLG_ONLY_LOCALS : Nat := 0x02

def FLG_ONLY_GLOBALS : Nat := 0x04

def FLG_IGNR_LIST : Nat := 0x08

def FLG_WATCH_LIST : Nat := 0x10

def FLG_DUMP_ALL : Nat := 0x20

def FLG_IGNR_EQSTAT : Nat := 0x40

def FLG_SYNTAX_HIGHLIGHT : Nat := 0x80

/-- Flag tested by main.c to select the static-analysis breakpoint plan.
The snapshot's headers do not carry its numeric value, so a bit distinct
from the eight pbd.h flags is used; only bit-distinctness matters. -/
def FLG_STATIC_ANALYSIS : Nat := 0x100

/-! Little-endian byte/word arithmetic used to model 64-bit memory reads. -/

/-- Value of a byte list read as a little-endian number (x86_64 load). -/
def leVal : List Nat → Nat
  | [] => 0
  | b :: bs => b + 256 * leVal bs

/-- Count of trailing zero bits; models __builtin_ctzll, whose argument is
never zero at the single call site in offmemcmp_generic. -/
def ctz (x : Nat) : Nat :=
  if h : x = 0 then 0
  else if x % 2 = 1 then 0
  else ctz (x / 2) + 1
termination_by x
decreasing_by
  exact Nat.div_lt_self (Nat.pos_of_ne_zero h) Nat.one_lt_two

/-! Model of offmemcmp_generic (variable.c, lines 201-241).

The C routine takes the two buffers, the element size `block_size` and the
common length `n`; here the buffers are byte lists and `n` is their length.
`pos` carries the value of the C expression `size - n` (bytes already
scanned). -/

/-- The trailing `while (n)` byte loop of offmemcmp_generic. -/
def offBytesLoop : List Nat → List Nat → Nat → Int
  | a :: as, b :: bs, pos => if a ≠ b then (pos : Int) else offBytesLoop as bs (pos + 1)
  | _, _, _ => -1

/-- The leading `while (n >= 8)` word loop of offmemcmp_generic, falling
through to the byte loop. Written by pattern matching eight bytes at a time,
which is the structural counterpart of the C condition `n >= 8`. -/
def offWordsLoop (s : Nat) : List Nat → List Nat → Nat → Int
  | x0 :: x1 :: x2 :: x3 :: x4 :: x5 :: x6 :: x7 :: r1, b2, pos =>
      let w1 := leVal [x0, x1, x2, x3, x4, x5, x6, x7]
      let w2 := leVal (b2.take 8)
      if w1 ≠ w2 then
        (((ctz (w1 ^^^ w2) / (s * 8)) * s + pos : Nat) : Int)
      else offWordsLoop s r1 (b2.drop 8) (pos + 8)
  | b1, b2, pos => offBytesLoop b1 b2 pos

/-- Model of offmemcmp_generic. The C source computes
`(trailing_zeros / (block_size << 3)) * block_size + (size - n)` in the word
loop and `size - n` in the byte loop; `block_size << 3` is `s * 8`. -/
def offmemcmp_generic (v1 v2 : List Nat) (s : Nat) : Int :=
  offWordsLoop s v1 v2 0

/-- Position of the lowest-offset differing byte of two images. -/
def firstDiff (v1 v2 : List Nat) (d : Nat) : Prop :=
  v1.getD d 0 ≠ v2.getD d 0 ∧ ∀ j, j < d → v1.getD j 0 = v2.getD j 0

instance (v1 v2 : List Nat) (d : Nat) : Decidable (firstDiff v1 v2 d) := by
  unfold firstDiff
  infer_instance

/-! Variable model: struct dw_variable (dwarf_helper.h) and variable.c. -/

/-- The 16-byte `union var_value`, at the granularity of its two 64-bit
words u64_value[0] and u64_value[1]. -/
structure VarValue where
  lo : Nat
  hi : Nat

/-- Byte image of a var_value union (little-endian x86_64 layout). -/
def u64Bytes (v : VarValue) : List Nat :=
  ((List.range 8).map (fun i => v.lo / 256 ^ i % 256)) ++
    ((List.range 8).map (fun i => v.hi / 256 ^ i % 256))

/-- The test `memcmp(&a.u64_value, &b.u64_value, sz)` being nonzero. -/
def memDiffers (sz : Nat) (a b : VarValue) : Bool :=
  decide (List.take sz (u64Bytes a) ≠ List.take sz (u64Bytes b))

/-- Model of struct dw_variable. The union `value` is split into its
scalar reading (`value`) and its pointer reading (`arrValue`, the bytes
the p_value snapshot points at); `scratch` is scratch_value. -/
structure DwVariable where
  name : String
  scope : Nat
  value : VarValue
  arrValue : List Nat
  scratch : VarValue
  initialized : Bool
  byte_size : Nat
  var_type : Nat
  encoding : Nat
  arr_var_type : Nat
  size_per_element : Nat
  dimensions : Nat
  elements_per_dimension : List Nat

/-- Bytes the ptrace oracle yields for one variable at one stop: `lo` and
`hi` are the words pt_readmemory64 returns at the variable's effective
address and at address + 8, `bytes` the bulk pt_readmemory image used for
arrays. Global and frame-base-relative addressing both resolve to these. -/
structure ReadVal where
  lo : Nat
  hi : Nat
  bytes : List Nat

/-- What var_read wrote into the value union before returning. -/
inductive ReadRes
  | one (lo : Nat)
  | two (lo hi : Nat)
  | arr (bs : List Nat)
  | fail

/-- Model of var_read (variable.c, lines 362-458). A read of at most 8
bytes writes only u64_value[0]; a 16-byte read writes both words; an array
read writes p_value; anything else returns -1 with nothing written. -/
def var_read (v : DwVariable) (r : ReadVal) : ReadRes :=
  if v.var_type &&& (TBASE_TYPE ||| TENUM ||| TPOINTER) ≠ 0 then
    if v.byte_size ≤ 8 then .one r.lo
    else if v.byte_size = 16 then .two r.lo r.hi
    else .fail
  else if v.var_type = TARRAY then
    if v.arr_var_type &&& (TBASE_TYPE ||| TENUM ||| TPOINTER) ≠ 0 then .arr r.bytes
    else .fail
  else .fail

/-- One loop iteration of var_initialize (variable.c lines 476-541) for
one variable. `QUIT(EXIT_FAILURE, "wrong size type!...")` aborts the whole
run; that is the `.error` case. -/
def var_initialize_one (v : DwVariable) (r : ReadVal) : Except Unit DwVariable :=
  if v.var_type &&& (TBASE_TYPE ||| TENUM ||| TPOINTER) ≠ 0 then
    if v.scope ≠ VGLOBAL then
      match var_read v r with
      | .one lo => .ok { v with scratch := ⟨lo, v.scratch.hi⟩, initialized := false }
      | .two lo hi => .ok { v with scratch := ⟨lo, hi⟩, initialized := false }
      | _ => .error ()
    else
      match var_read v r with
      | .one lo => .ok { v with value := ⟨lo, v.value.hi⟩, initialized := true }
      | .two lo hi => .ok { v with value := ⟨lo, hi⟩, initialized := true }
      | _ => .error ()
  else if v.var_type = TARRAY then
    if v.arr_var_type &&& (TBASE_TYPE ||| TENUM ||| TPOINTER) ≠ 0 then
      match var_read v r with
      | .arr bs => .ok { v with arrValue := bs, initialized := true }
      | _ => .error ()
    else .ok v
  else .ok v

/-- Model of var_initialize (variable.c lines 470-542): initialize every
variable of the current context from the stop's reads. Variables beyond
the read oracle's list are left untouched (the oracle supplies one entry
per variable). -/
def var_initialize : List DwVariable → List ReadVal → Except Unit (List DwVariable)
  | [], _ => .ok []
  | vs, [] => .ok vs
  | v :: vs, r :: rs => do
      let v' ← var_initialize_one v r
      let vs' ← var_initialize vs rs
      .ok (v' :: vs')

/-- Model of var_dump (variable.c lines 42-78): every variable's existence
is printed, whatever its type. -/
def var_dump (vars : List DwVariable) : List String :=
  vars.map (fun v => v.name)

/-! Events emitted through the line_output sink and the controller's
fn_printf depth messages. -/

/-- A value as passed to line_output: the scalar union or, for one array
element, the bytes memcpy'd into the local union. -/
inductive VVal
  | scalar (v : VarValue)
  | bytes (bs : List Nat)

/-- Observable events of a run: the "[depth: D] Entering/Returning"
messages of do_analysis and each call of the line_output sink. The
`initialized` flag records v->initialized at the moment of the call (the
default printer prints "initialized!" when it is false, "has changed!"
otherwise). -/
inductive Event
  | entering (depth : Nat)
  | returning (depth : Nat)
  | change (depth : Nat) (line : Nat) (name : String) (scope : Nat)
      (initialized : Bool) (before after : VVal) (idx : Option (List Nat))

/-- The multi-dimension index computation of var_check_changes (variable.c
lines 675-686): `for (j = 0; j < dims && div; j++) { idx[idx_dim] = div %
epd[idx_dim]; div /= epd[idx_dim]; idx_dim--; }`. `k` counts the remaining
iterations (dims - j); positions the loop never writes keep their previous
content. -/
def calc_indexes (epd : List Nat) : Nat → Nat → Nat → List Nat → List Nat
  | 0, _, _, idx => idx
  | k + 1, idx_dim, dv, idx =>
      if dv = 0 then idx
      else calc_indexes epd k (idx_dim - 1) (dv / epd.getD idx_dim 0)
        (idx.set idx_dim (dv % epd.getD idx_dim 0))

/-- The array comparison loop of var_check_changes (variable.c lines
639-696). `cur` is `cmp1 - v1`, `size` the C variable of the same name,
and `idx` the shared index_per_dimension array. The loop advances by at
least one byte per iteration whenever size_per_element ≥ 1, so fuel
byte_size + 1 is never exhausted at the call site. Returns the emitted
events, the final index array and the `changed` flag. -/
def arrayDiffLoop (depth line : Nat) (v : DwVariable) (v1 v2 : List Nat) :
    Nat → Nat → Nat → List Nat → List Event × List Nat × Bool
  | 0, _, _, idx => ([], idx, false)
  | fuel + 1, cur, size, idx =>
      if cur < v.byte_size then
        let off := offmemcmp_generic ((v1.drop cur).take size) ((v2.drop cur).take size)
          v.size_per_element
        if 0 ≤ off then
          let bo := off.toNat
          let cur' := cur + bo
          let val1 := (v1.drop cur').take v.size_per_element
          let val2 := (v2.drop cur').take v.size_per_element
          let dv := cur' / v.size_per_element
          let idx' :=
            if v.dimensions = 1 then idx.set 0 dv
            else calc_indexes v.elements_per_dimension v.dimensions (v.dimensions - 1) dv idx
          let ev := Event.change depth line v.name v.scope v.initialized
            (.bytes val1) (.bytes val2) (some (idx'.take v.dimensions))
          let rest := arrayDiffLoop depth line v v1 v2 fuel
            (cur' + v.size_per_element) (size - (bo + v.size_per_element)) idx'
          (ev :: rest.1, rest.2.1, true)
        else ([], idx, false)
      else ([], idx, false)

/-- One loop iteration of var_check_changes (variable.c lines 563-715) for
one variable. `g` is the current content of the function-scoped union
`value`, declared once and reused across variables — var_read writes only
u64_value[0] for reads of at most 8 bytes and nothing at all when it
fails, so the remaining bytes carry over. Returns the updated variable,
its events, and the new contents of the union and of the shared index
array. -/
def var_check_one (depth line : Nat) (v : DwVariable) (r : ReadVal) (g : VarValue)
    (idx : List Nat) : DwVariable × List Event × VarValue × List Nat :=
  if v.var_type &&& (TBASE_TYPE ||| TENUM ||| TPOINTER) ≠ 0 then
    let value : VarValue :=
      match var_read v r with
      | .one lo => ⟨lo, g.hi⟩
      | .two lo hi => ⟨lo, hi⟩
      | _ => g
    if ¬ v.initialized then
      if memDiffers v.byte_size value v.scratch then
        let scr : VarValue :=
          if v.encoding ≠ ENC_FLOAT then ⟨0, v.scratch.hi⟩
          else ⟨0, 0⟩
        let ev := Event.change depth line v.name v.scope false
          (.scalar scr) (.scalar value) none
        ({ v with value := value, scratch := scr, initialized := true }, [ev], value, idx)
      else (v, [], value, idx)
    else
      if memDiffers v.byte_size value v.value then
        let ev := Event.change depth line v.name v.scope true
          (.scalar v.value) (.scalar value) none
        ({ v with value := value }, [ev], value, idx)
      else (v, [], value, idx)
  else if v.var_type = TARRAY then
    if v.arr_var_type &&& (TBASE_TYPE ||| TENUM ||| TPOINTER) ≠ 0 then
      let res := arrayDiffLoop depth line v v.arrValue r.bytes
        (v.byte_size + 1) 0 v.byte_size idx
      if res.2.2 then ({ v with arrValue := r.bytes }, res.1, g, res.2.1)
      else (v, res.1, g, res.2.1)
    else (v, [], g, idx)
  else (v, [], g, idx)

/-- The variable loop of var_check_changes, threading the shared union and
index array through the variables in order. -/
def var_check_go (depth line : Nat) : List DwVariable → List ReadVal → VarValue →
    List Nat → List DwVariable × List Event
  | [], _, _, _ => ([], [])
  | vs, [], _, _ => (vs, [])
  | v :: vs, r :: rs, g, idx =>
      let st := var_check_one depth line v r g idx
      let rest := var_check_go depth line vs rs st.2.2.1 st.2.2.2
      (st.1 :: rest.1, st.2.1 ++ rest.2)

/-- Model of var_check_changes (variable.c lines 557-716). `b_line` is the
line number of the breakpoint handed in (`b->line_no`), `g0` the initial
indeterminate content of the stack union `value`; the shared index array
starts as eight zeros. -/
def var_check_changes (b_line depth : Nat) (vars : List DwVariable)
    (reads : List ReadVal) (g0 : VarValue) : List DwVariable × List Event :=
  var_check_go depth b_line vars reads g0 (List.replicate MATRIX_MAX_DIMENSIONS 0)

/-! Value formatting: var_format_value (variable.c lines 96-183). -/

/-- C isprint on the byte the 1-byte cases pass (negative signed bytes are
not printable). -/
def isprintByte (b : Nat) : Bool :=
  decide (32 ≤ b % 256 ∧ b % 256 ≤ 126)

/-- Two's-complement reading of the low w bits of a word. -/
def toSigned (w n : Nat) : Int :=
  let m := n % 2 ^ w
  if m < 2 ^ (w - 1) then (m : Int) else (m : Int) - 2 ^ w

/-- The snprintf call one branch of var_format_value performs, with the
exact value it formats. -/
inductive Formatted
  | s8 (v : Int) (ch : Option Nat)
  | s16 (v : Int)
  | s32 (v : Int)
  | s64 (v : Int)
  | u8 (v : Nat) (ch : Option Nat)
  | u16 (v : Nat)
  | u32 (v : Nat)
  | u64 (v : Nat)
  | f32 (bits : Nat)
  | f64 (bits : Nat)
  | f128 (bitsLo bitsHi : Nat)
  | p32 (v : Nat)
  | p64 (v : Nat)

/-- Result of var_format_value: NULL, the buffer after a snprintf, or the
buffer with nothing written into it. -/
inductive FmtRes
  | null
  | wrote (f : Formatted)
  | untouched

/-- Model of var_format_value. The outer switch is on the exact encoding
value; each inner switch on byte_size has no default case, so an
unsupported size falls through and the (unmodified) buffer is returned. -/
def var_format_value (v : VarValue) (encoding byte_size : Nat) : FmtRes :=
  if encoding = ENC_SIGNED then
    if byte_size = 1 then
      .wrote (.s8 (toSigned 8 v.lo) (if isprintByte v.lo then some (v.lo % 256) else none))
    else if byte_size = 2 then .wrote (.s16 (toSigned 16 v.lo))
    else if byte_size = 4 then .wrote (.s32 (toSigned 32 v.lo))
    else if byte_size = 8 then .wrote (.s64 (toSigned 64 v.lo))
    else .untouched
  else if encoding = ENC_UNSIGNED then
    if byte_size = 1 then
      .wrote (.u8 (v.lo % 2 ^ 8) (if isprintByte v.lo then some (v.lo % 256) else none))
    else if byte_size = 2 then .wrote (.u16 (v.lo % 2 ^ 16))
    else if byte_size = 4 then .wrote (.u32 (v.lo % 2 ^ 32))
    else if byte_size = 8 then .wrote (.u64 (v.lo % 2 ^ 64))
    else .untouched
  else if encoding = ENC_FLOAT then
    if byte_size = 4 then .wrote (.f32 (v.lo % 2 ^ 32))
    else if byte_size = 8 then .wrote (.f64 (v.lo % 2 ^ 64))
    else if byte_size = 16 then .wrote (.f128 v.lo (v.hi % 2 ^ 16))
    else .untouched
  else if encoding = ENC_POINTER then
    if byte_size = 4 then .wrote (.p32 (v.lo % 2 ^ 32))
    else if byte_size = 8 then .wrote (.p64 (v.lo % 2 ^ 64))
    else .untouched
  else .null

/-! Breakpoint planning: breakpoint.c and analysis.c. The address-keyed
hashtable is modelled as a list in insertion order; hashtable_add appends
and hashtable_get searches by address. -/

/-- Model of struct dw_line (dwarf_helper.h). -/
structure DwLine where
  addr : Nat
  line_no : Nat
  line_type : Nat

/-- Model of struct breakpoint (breakpoint.h). -/
structure Breakpoint where
  addr : Nat
  original_byte : Nat
  line_no : Nat

/-- Model of bp_findbreakpoint / hashtable_get on the breakpoint table. -/
def bp_findbreakpoint (addr : Nat) (bps : List Breakpoint) : Option Breakpoint :=
  bps.find? (fun b => b.addr == addr)

/-- Model of bp_createlist (breakpoint.c lines 37-64): one breakpoint per
line record whose type is exactly LBEGIN_STMT (the C comparison is
`l->line_type != LBEGIN_STMT`, an equality test, not a mask test). -/
def bp_createlist (lines : List DwLine) : List Breakpoint :=
  lines.filterMap (fun l =>
    if l.line_type = LBEGIN_STMT then
      some { addr := l.addr, original_byte := 0, line_no := l.line_no }
    else none)

/-- The `while (l < r)` loop of binsearch_lines (analysis.c lines 123-133). -/
def binsearchLoop (lines : List DwLine) (line_no : Nat) (l r : Nat) : Nat :=
  if hlr : l < r then
    let m := (r + l) / 2
    match lines.get? m with
    | some line =>
        if line.line_no < line_no then binsearchLoop lines line_no (m + 1) r
        else binsearchLoop lines line_no l m
    | none => l
  else l
termination_by r - l
decreasing_by
  · omega
  · omega

/-- Model of binsearch_lines (analysis.c lines 111-140): leftmost
occurrence of line_no in the (line-sorted) lines list, or -1. On an empty
list the C computes r = -1 and reads a NULL slot; it returns -1. -/
def binsearch_lines (lines : List DwLine) (line_no : Nat) : Int :=
  if lines.length = 0 then -1
  else
    let l := binsearchLoop lines line_no 0 (lines.length - 1)
    match lines.get? l with
    | some line => if line.line_no = line_no then (l : Int) else -1
    | none => -1

/-- The `while (idx < size)` loop of try_add_symbol (analysis.c lines
224-256), walking the suffix of the lines list that starts at the
binsearch hit. -/
def tryAddLoop (line_no : Nat) : List DwLine → List Breakpoint → List Breakpoint
  | [], bps => bps
  | line :: rest, bps =>
      if line.line_no ≠ line_no then bps
      else if line.line_type ≠ LBEGIN_STMT then tryAddLoop line_no rest bps
      else if (bp_findbreakpoint line.addr bps).isSome then bps
      else tryAddLoop line_no rest
        (bps ++ [{ addr := line.addr, original_byte := 0, line_no := line.line_no }])

/-- Model of try_add_symbol (analysis.c lines 209-257). -/
def try_add_symbol (lines : List DwLine) (line_no : Nat) (bps : List Breakpoint) :
    List Breakpoint :=
  let idx := binsearch_lines lines line_no
  if idx < 0 then bps
  else tryAddLoop line_no (lines.drop idx.toNat) bps

/-- Model of static_analysis (analysis.c lines 619-693). The sparse-based
source walk (process / handle_stmt / handle_expr) is the out-of-scope
analyzer oracle; its effect is the sequence of line numbers on which
try_add_symbol gets called, the parameter `oracleLines`. Before the walk,
two seed breakpoints are inserted: the function's first instruction
`firstbreak` with line_no 0, and the last element of the lines list. -/
def static_analysis (lines : List DwLine) (firstbreak : Nat)
    (oracleLines : List Nat) : List Breakpoint :=
  let seeds : List Breakpoint :=
    [{ addr := firstbreak, original_byte := 0, line_no := 0 }] ++
      (match lines.getLast? with
       | some line => [{ addr := line.addr, original_byte := 0, line_no := line.line_no }]
       | none => [])
  oracleLines.foldl (fun bps ln => try_add_symbol lines ln bps) seeds

/-- The breakpoint-plan selection of do_analysis (main.c lines 223-225):
static_analysis when FLG_STATIC_ANALYSIS is set, bp_createlist otherwise.
No other flag — in particular not FLG_IGNR_EQSTAT — is consulted anywhere
in the computation of the breakpoint list. -/
def choose_breakpoints (flags : Nat) (lines : List DwLine) (low_pc : Nat)
    (oracleLines : List Nat) : List Breakpoint :=
  if flags &&& FLG_STATIC_ANALYSIS ≠ 0 then static_analysis lines low_pc oracleLines
  else bp_createlist lines

/-! Breakpoint trap protocol: bp_skipbreakpoint (breakpoint.c) over a
ptrace child modelled as byte-addressed memory plus a program counter. -/

/-- A local 12-byte signed integer descriptor: a byte size var_read
handles in no branch. -/
def int12Var : DwVariable :=
  { name := "w", scope := VLOCAL, value := ⟨0, 0⟩, arrValue := [], scratch := ⟨0, 0⟩,
    initialized := false, byte_size := 12, var_type := TBASE_TYPE, encoding := ENC_SIGNED,
    arr_var_type := 0, size_per_element := 0, dimensions := 0, elements_per_dimension := [] }

/-- A local structure descriptor: a type class neither var_initialize nor
var_check_changes handles. -/
def structVar : DwVariable :=
  { name := "st", scope := VLOCAL, value := ⟨0, 0⟩, arrValue := [], scratch := ⟨0, 0⟩,
    initialized := false, byte_size := 24, var_type := TSTRUCTURE, encoding := ENC_UNKNOWN,
    arr_var_type := 0, size_per_element := 0, dimensions := 0, elements_per_dimension := [] }

/-- A local 16-byte signed integer (an __int128) whose frame-entry bytes
(scratch image) are word 5 (low) and word 7 (high). -/
def int128Var : DwVariable :=
  { name := "q", scope := VLOCAL, value := ⟨0, 0⟩, arrValue := [], scratch := ⟨5, 7⟩,
    initialized := false, byte_size := 16, var_type := TBASE_TYPE, encoding := ENC_SIGNED,
    arr_var_type := 0, size_per_element := 0, dimensions := 0, elements_per_dimension := [] }

/-- A global 2x2 array of 1-byte elements named "a", snapshot all zero. -/
def arrVarA : DwVariable :=
  { name := "a", scope := VGLOBAL, value := ⟨0, 0⟩, arrValue := [0, 0, 0, 0],
    scratch := ⟨0, 0⟩, initialized := true, byte_size := 4, var_type := TARRAY,
    encoding := ENC_UNSIGNED, arr_var_type := TBASE_TYPE, size_per_element := 1,
    dimensions := 2, elements_per_dimension := [2, 2] }

/-- A second such array, named "b". -/
def arrVarB : DwVariable :=
  { arrVarA with name := "b" }

/-! Controller main loop: do_analysis (main.c lines 193-350). A stop is a
wait()-reported trap, classified the way the loop classifies it: by
whether the adjusted pc is the function's entry address (dw_func.low_pc),
the top frame's recorded return address, another planned breakpoint, or an
address with no breakpoint record (bp_findbreakpoint NULL). Ordinary and
entry stops carry the trapped breakpoint's line number; ordinary stops
also carry the words ptrace would read for each of the current frame's
variables at that moment. -/

/-- One classified stop of the traced child. -/
inductive Stop
  | entry (line : Nat)
  | ret
  | ordinary (line : Nat) (reads : List ReadVal)
  | unknown

/-- The controller's state between stops: the context list (one variable
list per live frame, bottom first), the recursion counter `depth`, the
`init_vars` flag, the line number of `prev_bp` (none while NULL), and the
events output so far. -/
structure LoopState where
  context : List (List DwVariable)
  depth : Int
  init_vars : Bool
  prev_line : Option Nat
  events : List Event

/-- Model of var_new_context (variable.c lines 255-304): duplicate every
variable of the previous context — the struct memcpy copies every field,
scratch and initialized flag included — then zero the value union
(u64_value[0] = u64_value[1] = 0, which also nulls p_value). -/
def var_new_context (vars : List DwVariable) : List DwVariable :=
  vars.map (fun v => { v with value := ⟨0, 0⟩, arrValue := [] })

/-- The array-freeing pass of var_deallocate_context (variable.c lines
325-341): every TARRAY variable's p_value is freed and nulled. -/
def free_arrays (vars : List DwVariable) : List DwVariable :=
  vars.map (fun v => if v.var_type = TARRAY then { v with arrValue := [] } else v)

/-- One iteration of the do_analysis main loop (main.c lines 242-346).
current_depth is array_size(&context) read at the top of the iteration; f
is the top context. On an entry trap, a new context is cloned only when
current_depth > 0 and depth > 0 (recursion), the return-address breakpoint
installation is part of the stop classification, and init_vars is raised.
On a return trap the "Returning" message is printed with current_depth,
arrays of the top frame are freed, and the frame is popped only when
current_depth > 1. On an ordinary planned stop, a raised init_vars prints
"Entering" and runs var_initialize (whose QUIT aborts the run: `.error`),
then var_check_changes runs against prev_bp if one exists; prev_bp then
becomes this stop's breakpoint. Unknown traps just continue. -/
def do_analysis_step (s : LoopState) : Stop → Except Unit LoopState
  | .unknown => .ok s
  | .entry line =>
      let current_depth := s.context.length
      let context1 :=
        if current_depth > 0 ∧ s.depth > 0 then
          s.context ++ [var_new_context ((s.context.getLast?).getD [])]
        else s.context
      .ok { s with
            context := context1
            depth := s.depth + 1
            init_vars := true
            prev_line := some line }
  | .ret =>
      let current_depth := s.context.length
      let f := (s.context.getLast?).getD []
      let context1 := s.context.dropLast ++ [free_arrays f]
      let context2 := if current_depth > 1 then context1.dropLast else context1
      .ok { s with
            context := context2
            depth := s.depth - 1
            events := s.events ++ [Event.returning current_depth] }
  | .ordinary line reads =>
      let current_depth := s.context.length
      let f := (s.context.getLast?).getD []
      let initRes : Except Unit (List DwVariable × List Event) :=
        if s.init_vars then
          match var_initialize f reads with
          | .ok f' => .ok (f', [Event.entering current_depth])
          | .error e => .error e
        else .ok (f, [])
      match initRes with
      | .error e => .error e
      | .ok (f1, evInit) =>
          let chk :=
            match s.prev_line with
            | some pl => var_check_changes pl current_depth f1 reads ⟨0, 0⟩
            | none => (f1, [])
          .ok { s with
                context := s.context.dropLast ++ [chk.1]
                init_vars := false
                prev_line := some line
                events := s.events ++ evInit ++ chk.2 }

/-- The main loop over a whole trace of stops. -/
def do_analysis_run : LoopState → List Stop → Except Unit LoopState
  | s, [] => .ok s
  | s, st :: rest =>
      match do_analysis_step s st with
      | .ok s' => do_analysis_run s' rest
      | .error e => .error e

/-- The state right after setup (main.c setup, lines 82-144): one
pre-created bottom context holding the parsed descriptors, depth 0,
init_vars clear, prev_bp NULL, nothing printed. -/
def init_state (vars0 : List DwVariable) : LoopState :=
  { context := [vars0], depth := 0, init_vars := false, prev_line := none, events := [] }

/-- Whether an event is a line_output change record (as opposed to one of
the controller's depth messages). -/
def isChangeEv : Event → Bool
  | .change _ _ _ _ _ _ _ _ => true
  | _ => false

/-- Recognizer for the "[depth: D] Entering function" message. -/
def isEnteringD (D : Nat) : Event → Bool
  | .entering d => d == D
  | _ => false

/-- Recognizer for the "[depth: D] Returning to function" message. -/
def isReturningD (D : Nat) : Event → Bool
  | .returning d => d == D
  | _ => false

/-- Number of "entering depth D" events in a list. -/
def countEnter (D : Nat) (evs : List Event) : Nat :=
  (evs.filter (isEnteringD D)).length

/-- Number of "returning to depth D" events in a list. -/
def countReturn (D : Nat) (evs : List Event) : Nat :=
  (evs.filter (isReturningD D)).length

/-- Well-formed stop traces: every entry trap is immediately followed by
an ordinary planned stop (the first executed statement that carries a
planned breakpoint), then a well-formed inner body, then the matching trap
at the frame's return address; ordinary stops may appear anywhere. -/
inductive Body : List Stop → Prop
  | nil : Body []
  | ord (line : Nat) (reads : List ReadVal) (b : List Stop) :
      Body b → Body (Stop.ordinary line reads :: b)
  | call (eline line : Nat) (reads : List ReadVal) (inner b : List Stop) :
      Body inner → Body b →
      Body (Stop.entry eline :: Stop.ordinary line reads :: (inner ++ Stop.ret :: b))

/-- The byte image of the first sz bytes of a 64-bit little-endian word:
what memcmp with length sz ≤ 8 actually inspects of the value union. -/
def prefixImage (sz lo : Nat) : List Nat :=
  (List.range sz).map (fun i => lo / 256 ^ i % 256)

/-- Fixture: a plain 4-byte signed local int "x", already initialized,
currently holding 3. -/
def intVarX : DwVariable :=
  { name := "x"
    scope := VLOCAL
    value := ⟨3, 0⟩
    arrValue := []
    scratch := ⟨0, 0⟩
    initialized := true
    byte_size := 4
    var_type := TBASE_TYPE
    encoding := ENC_SIGNED
    arr_var_type := 0
    size_per_element := 0
    dimensions := 0
    elements_per_dimension := [] }

theorem leVal_nil : leVal [] = 0 := rfl

theorem leVal_cons (b : Nat) (bs : List Nat) : leVal (b :: bs) = b + 256 * leVal bs := rfl

theorem leVal_append (l m : List Nat) :
    leVal (l ++ m) = leVal l + 256 ^ l.length * leVal m := by
  induction l with
  | nil => simp [leVal]
  | cons b bs ih =>
      simp only [List.cons_append, leVal_cons, ih, List.length_cons]
      ring

theorem leVal_lt (l : List Nat) (hb : ∀ b ∈ l, b < 256) :
    leVal l < 256 ^ l.length := by
  induction l with
  | nil => simp [leVal]
  | cons b bs ih =>
      have hbb : b < 256 := hb b (List.mem_cons_self b bs)
      have hrest : leVal bs < 256 ^ bs.length := by
        refine ih ?_
        intro x hx
        exact hb x (List.mem_cons_of_mem b hx)
      have : 256 ^ (b :: bs).length = 256 * 256 ^ bs.length := by
        simp [List.length_cons, pow_succ]
        ring
      rw [this, leVal_cons]
      omega

theorem leVal_inj_aux (l : List Nat) : ∀ m : List Nat, l.length = m.length →
    (∀ b ∈ l, b < 256) → (∀ b ∈ m, b < 256) → leVal l = leVal m → l = m := by
  induction l with
  | nil =>
      intro m hlen _ _ _
      cases m with
      | nil => rfl
      | cons c cs => simp at hlen
  | cons b bs ih =>
      intro m hlen hb1 hb2 h
      cases m with
      | nil => simp at hlen
      | cons c cs =>
          have hbb : b < 256 := hb1 b (List.mem_cons_self b bs)
          have hcc : c < 256 := hb2 c (List.mem_cons_self c cs)
          simp only [leVal_cons] at h
          have hbc : b = c ∧ leVal bs = leVal cs := by omega
          have htail : bs = cs := by
            refine ih cs (by simpa using hlen) ?_ ?_ hbc.2
            · intro x hx; exact hb1 x (List.mem_cons_of_mem b hx)
            · intro x hx; exact hb2 x (List.mem_cons_of_mem c hx)
          rw [hbc.1, htail]

theorem leVal_inj (l m : List Nat) (hlen : l.length = m.length)
    (hb1 : ∀ b ∈ l, b < 256) (hb2 : ∀ b ∈ m, b < 256) :
    leVal l = leVal m ↔ l = m := by
  constructor
  · exact leVal_inj_aux l m hlen hb1 hb2
  · intro h; rw [h]

theorem ctz_odd (x : Nat) (h : x % 2 = 1) : ctz x = 0 := by
  have hx : x ≠ 0 := by omega
  rw [ctz]
  simp [hx, h]

theorem ctz_even (x : Nat) (hx : x ≠ 0) (h : x % 2 = 0) :
    ctz x = ctz (x / 2) + 1 := by
  rw [ctz]
  simp [hx, h]

theorem ctz_le_of_testBit (x : Nat) : ∀ i, x.testBit i = true → ctz x ≤ i := by
  induction x using Nat.strong_induction_on with
  | _ x ih =>
      intro i hbit
      have hx : x ≠ 0 := by
        intro h; rw [h] at hbit; simp [Nat.testBit] at hbit
      rcases Nat.even_or_odd x with he | ho
      · have hmod : x % 2 = 0 := Nat.even_iff.mp he
        rw [ctz_even x hx hmod]
        cases i with
        | zero =>
            rw [Nat.testBit_zero] at hbit
            rw [decide_eq_true_eq] at hbit
            omega
        | succ j =>
            have hstep : x.testBit (j + 1) = (x / 2).testBit j := by
              rw [Nat.testBit_add_one]
            rw [hstep] at hbit
            have hlt : x / 2 < x := Nat.div_lt_self (Nat.pos_of_ne_zero hx) Nat.one_lt_two
            have := ih (x / 2) hlt j hbit
            omega
      · have hmod : x % 2 = 1 := Nat.odd_iff.mp ho
        rw [ctz_odd x hmod]
        exact Nat.zero_le i

theorem testBit_lt_ctz (x : Nat) (hx : x ≠ 0) : ∀ i, i < ctz x → x.testBit i = false := by
  induction x using Nat.strong_induction_on with
  | _ x ih =>
      intro i hi
      rcases Nat.even_or_odd x with he | ho
      · have hmod : x % 2 = 0 := Nat.even_iff.mp he
        rw [ctz_even x hx hmod] at hi
        cases i with
        | zero =>
            rw [Nat.testBit_zero]
            simp only [decide_eq_false_iff_not]
            omega
        | succ j =>
            rw [Nat.testBit_add_one]
            have hhalf : x / 2 ≠ 0 := by
              intro h0
              have := Nat.div_add_mod x 2
              omega
            have hlt : x / 2 < x := Nat.div_lt_self (Nat.pos_of_ne_zero hx) Nat.one_lt_two
            exact ih (x / 2) hlt hhalf j (by omega)
      · have hmod : x % 2 = 1 := Nat.odd_iff.mp ho
        rw [ctz_odd x hmod] at hi
        omega

theorem ctz_two_mul (x : Nat) (hx : x ≠ 0) : ctz (2 * x) = ctz x + 1 := by
  have h2 : (2 * x) % 2 = 0 := by omega
  have hnz : 2 * x ≠ 0 := by omega
  rw [ctz_even (2 * x) hnz h2]
  congr 1
  congr 1
  omega

theorem ctz_pow_mul (k x : Nat) (hx : x ≠ 0) : ctz (2 ^ k * x) = k + ctz x := by
  induction k with
  | zero => simp
  | succ j ih =>
      have : 2 ^ (j + 1) * x = 2 * (2 ^ j * x) := by ring
      rw [this, ctz_two_mul _ (by positivity), ih]
      omega

theorem ctz_lt_eight (x : Nat) (hx : x % 256 ≠ 0) : ctz x < 8 := by
  by_contra hge
  push_neg at hge
  have hxnz : x ≠ 0 := by
    intro h; rw [h] at hx; simp at hx
  apply hx
  have h256 : (256 : Nat) = 2 ^ 8 := by norm_num
  rw [h256]
  apply Nat.eq_of_testBit_eq
  intro i
  rw [Nat.testBit_mod_two_pow, Nat.zero_testBit]
  by_cases hi : i < 8
  · rw [testBit_lt_ctz x hxnz i (by omega)]
    simp
  · simp [hi]

theorem ctz_pos_testBit (x : Nat) (hx : x ≠ 0) : x.testBit (ctz x) = true := by
  induction x using Nat.strong_induction_on with
  | _ x ih =>
      rcases Nat.even_or_odd x with he | ho
      · have hmod : x % 2 = 0 := Nat.even_iff.mp he
        rw [ctz_even x hx hmod, Nat.testBit_add_one]
        have hhalf : x / 2 ≠ 0 := by
          have := Nat.div_add_mod x 2
          intro h0; omega
        exact ih (x / 2) (Nat.div_lt_self (Nat.pos_of_ne_zero hx) Nat.one_lt_two) hhalf
      · have hmod : x % 2 = 1 := Nat.odd_iff.mp ho
        rw [ctz_odd x hmod, Nat.testBit_zero]
        simp [hmod]

theorem take_eq_of_getD (l m : List Nat) (d : Nat) (hlen : l.length = m.length)
    (h : ∀ j, j < d → l.getD j 0 = m.getD j 0) : l.take d = m.take d := by
  apply List.ext_getElem
  · simp [hlen]
  · intro i h1 h2
    have hil : i < l.length := by
      rw [List.length_take] at h1; omega
    have him : i < m.length := by omega
    have hid : i < d := by
      rw [List.length_take] at h1; omega
    have := h i hid
    rw [List.getD_eq_getElem l 0 hil, List.getD_eq_getElem m 0 him] at this
    rw [List.getElem_take, List.getElem_take]
    exact this

/-- The heart of the word path of offmemcmp_generic: the count of trailing
zeros of the XOR of the little-endian values of two byte lists locates the
lowest-offset differing byte, whose index is `d`. -/
theorem ctz_xor_leVal (c1 c2 : List Nat) (hlen : c1.length = c2.length)
    (hb1 : ∀ b ∈ c1, b < 256) (hb2 : ∀ b ∈ c2, b < 256)
    (d : Nat) (hd : d < c1.length)
    (hpre : ∀ j, j < d → c1.getD j 0 = c2.getD j 0)
    (hne : c1.getD d 0 ≠ c2.getD d 0) :
    8 * d ≤ ctz (leVal c1 ^^^ leVal c2) ∧ ctz (leVal c1 ^^^ leVal c2) < 8 * d + 8 := by
  have hdm : d < c2.length := by omega
  have htake : c1.take d = c2.take d := take_eq_of_getD c1 c2 d hlen hpre
  have hLlen : (c1.take d).length = d := by rw [List.length_take]; omega
  have hLlt : leVal (c1.take d) < 2 ^ (8 * d) := by
    have := leVal_lt (c1.take d) (fun b hb => hb1 b (List.take_subset d c1 hb))
    rw [hLlen] at this
    calc leVal (c1.take d) < 256 ^ d := this
    _ = 2 ^ (8 * d) := by rw [show (256 : Nat) = 2 ^ 8 by norm_num, ← pow_mul]
  have hsplit1 : leVal c1 = 2 ^ (8 * d) * leVal (c1.drop d) + leVal (c1.take d) := by
    conv_lhs => rw [← List.take_append_drop d c1]
    rw [leVal_append, hLlen]
    rw [show (256 : Nat) ^ d = 2 ^ (8 * d) by
      rw [show (256 : Nat) = 2 ^ 8 by norm_num, ← pow_mul]]
    ring
  have hsplit2 : leVal c2 = 2 ^ (8 * d) * leVal (c2.drop d) + leVal (c1.take d) := by
    conv_lhs => rw [← List.take_append_drop d c2]
    rw [leVal_append, htake] at *
    rw [show (c2.take d).length = d by rw [List.length_take]; omega] at *
    rw [show (256 : Nat) ^ d = 2 ^ (8 * d) by
      rw [show (256 : Nat) = 2 ^ 8 by norm_num, ← pow_mul]]
    rw [← htake]
    ring
  set H1 := leVal (c1.drop d) with hH1
  set H2 := leVal (c2.drop d) with hH2
  have hX : leVal c1 ^^^ leVal c2 = 2 ^ (8 * d) * (H1 ^^^ H2) := by
    apply Nat.eq_of_testBit_eq
    intro j
    rw [Nat.testBit_xor, hsplit1, hsplit2]
    rw [Nat.testBit_mul_pow_two_add _ hLlt, Nat.testBit_mul_pow_two_add _ hLlt]
    rw [show 2 ^ (8 * d) * (H1 ^^^ H2) = 2 ^ (8 * d) * (H1 ^^^ H2) + 0 by ring]
    rw [Nat.testBit_mul_pow_two_add _ (Nat.pos_pow_of_pos (8 * d) (by norm_num) : (0:Nat) < 2 ^ (8*d))]
    by_cases hj : j < 8 * d
    · simp [hj, Nat.zero_testBit]
    · simp only [hj, if_false]
      rw [Nat.testBit_xor]
  have hd1 : c1.drop d = c1.getD d 0 :: c1.drop (d + 1) := by
    rw [List.drop_eq_getElem_cons hd, List.getD_eq_getElem c1 0 hd]
  have hd2 : c2.drop d = c2.getD d 0 :: c2.drop (d + 1) := by
    rw [List.drop_eq_getElem_cons hdm, List.getD_eq_getElem c2 0 hdm]
  have hm1 : H1 % 256 = c1.getD d 0 := by
    rw [hH1, hd1, leVal_cons, Nat.add_mul_mod_self_left]
    apply Nat.mod_eq_of_lt
    apply hb1
    rw [List.getD_eq_getElem c1 0 hd]
    exact List.getElem_mem hd
  have hm2 : H2 % 256 = c2.getD d 0 := by
    rw [hH2, hd2, leVal_cons, Nat.add_mul_mod_self_left]
    apply Nat.mod_eq_of_lt
    apply hb2
    rw [List.getD_eq_getElem c2 0 hdm]
    exact List.getElem_mem hdm
  have hY : (H1 ^^^ H2) % 256 ≠ 0 := by
    intro h0
    apply hne
    rw [← hm1, ← hm2]
    have hbits : ∀ i, i < 8 → H1.testBit i = H2.testBit i := by
      intro i hi
      have : (H1 ^^^ H2).testBit i = false := by
        have := Nat.testBit_mod_two_pow (H1 ^^^ H2) 8 i
        rw [show (256 : Nat) = 2 ^ 8 by norm_num] at h0
        rw [h0, Nat.zero_testBit] at this
        have hdec : (decide (i < 8) && (H1 ^^^ H2).testBit i) = false := this.symm
        simpa [hi] using hdec
      rw [Nat.testBit_xor] at this
      have hstep : ∀ a b : Bool, (a ^^ b) = false → a = b := by decide
      exact hstep _ _ this
    have : H1 % 2 ^ 8 = H2 % 2 ^ 8 := by
      apply Nat.eq_of_testBit_eq
      intro i
      rw [Nat.testBit_mod_two_pow, Nat.testBit_mod_two_pow]
      by_cases hi : i < 8
      · simp [hi, hbits i hi]
      · simp [hi]
    simpa [show (256 : Nat) = 2 ^ 8 by norm_num] using this
  have hYne : H1 ^^^ H2 ≠ 0 := by
    intro h0; rw [h0] at hY; simp at hY
  rw [hX, ctz_pow_mul _ _ hYne]
  have := ctz_lt_eight (H1 ^^^ H2) hY
  omega

theorem offWordsLoop_eq_long (s : Nat) (b1 b2 : List Nat) (pos : Nat) (h : 8 ≤ b1.length) :
    offWordsLoop s b1 b2 pos =
      if leVal (b1.take 8) ≠ leVal (b2.take 8) then
        (((ctz (leVal (b1.take 8) ^^^ leVal (b2.take 8)) / (s * 8)) * s + pos : Nat) : Int)
      else offWordsLoop s (b1.drop 8) (b2.drop 8) (pos + 8) := by
  rcases b1 with _ | ⟨x0, _ | ⟨x1, _ | ⟨x2, _ | ⟨x3, _ | ⟨x4, _ | ⟨x5, _ | ⟨x6, _ | ⟨x7, r1⟩⟩⟩⟩⟩⟩⟩⟩
  all_goals try (exfalso; simp only [List.length_nil, List.length_cons] at h; omega)
  rfl

theorem offWordsLoop_eq_short (s : Nat) (b1 b2 : List Nat) (pos : Nat) (h : b1.length < 8) :
    offWordsLoop s b1 b2 pos = offBytesLoop b1 b2 pos := by
  rcases b1 with _ | ⟨x0, _ | ⟨x1, _ | ⟨x2, _ | ⟨x3, _ | ⟨x4, _ | ⟨x5, _ | ⟨x6, _ | ⟨x7, r1⟩⟩⟩⟩⟩⟩⟩⟩
  all_goals try (exfalso; simp only [List.length_nil, List.length_cons] at h; omega)
  all_goals rfl

theorem getD_take (l : List Nat) (n j : Nat) (h : j < n) :
    (l.take n).getD j 0 = l.getD j 0 := by
  rw [List.getD_eq_getElem?_getD, List.getD_eq_getElem?_getD, List.getElem?_take]
  simp [h]

theorem getD_drop (l : List Nat) (n j : Nat) :
    (l.drop n).getD j 0 = l.getD (n + j) 0 := by
  rw [List.getD_eq_getElem?_getD, List.getD_eq_getElem?_getD, List.getElem?_drop]

theorem offBytesLoop_spec : ∀ (v1 v2 : List Nat) (pos : Nat), v1.length = v2.length →
    (offBytesLoop v1 v2 pos = -1 ↔ v1 = v2) ∧
    (∀ d, firstDiff v1 v2 d → offBytesLoop v1 v2 pos = ((pos + d : Nat) : Int)) := by
  intro v1
  induction v1 with
  | nil =>
      intro v2 pos hlen
      cases v2 with
      | nil =>
          refine ⟨by simp [offBytesLoop], ?_⟩
          intro d hd
          exact absurd rfl hd.1
      | cons b bs => simp at hlen
  | cons a as ih =>
      intro v2 pos hlen
      cases v2 with
      | nil => simp at hlen
      | cons b bs =>
          have hlen' : as.length = bs.length := by simpa using hlen
          by_cases hab : a = b
          · subst hab
            have hrec := ih bs (pos + 1) hlen'
            have hunf : offBytesLoop (a :: as) (a :: bs) pos = offBytesLoop as bs (pos + 1) := by
              simp [offBytesLoop]
            constructor
            · rw [hunf, hrec.1]
              constructor
              · intro h; rw [h]
              · intro h; injection h
            · intro d hd
              rcases d with _ | e
              · exact absurd rfl hd.1
              · have hfd : firstDiff as bs e := by
                  constructor
                  · have := hd.1
                    simpa [List.getD_cons_succ] using this
                  · intro j hj
                    have := hd.2 (j + 1) (by omega)
                    simpa [List.getD_cons_succ] using this
                rw [hunf, hrec.2 e hfd]
                congr 1
                omega
          · have hunf : offBytesLoop (a :: as) (b :: bs) pos = ((pos : Nat) : Int) := by
              simp [offBytesLoop, hab]
            constructor
            · rw [hunf]
              constructor
              · intro h
                have := Int.natCast_nonneg pos
                omega
              · intro h
                injection h with h1 _
                exact absurd h1 hab
            · intro d hd
              rcases d with _ | e
              · rw [hunf]; norm_num
              · have := hd.2 0 (by omega)
                simp [List.getD_cons_zero] at this
                exact absurd this hab

theorem offWordsLoop_spec (s : Nat) (hs : s = 1 ∨ s = 2 ∨ s = 4 ∨ s = 8) :
    ∀ (n : Nat) (v1 v2 : List Nat) (pos : Nat), v1.length = n → v1.length = v2.length →
    (∀ b ∈ v1, b < 256) → (∀ b ∈ v2, b < 256) →
    (offWordsLoop s v1 v2 pos = -1 ↔ v1 = v2) ∧
    (∀ d, firstDiff v1 v2 d →
      offWordsLoop s v1 v2 pos =
        ((pos + (if d < 8 * (n / 8) then (d / s) * s else d) : Nat) : Int)) := by
  intro n
  induction n using Nat.strong_induction_on with
  | _ n ih =>
      intro v1 v2 pos hn hlen hb1 hb2
      by_cases hge : 8 ≤ v1.length
      · have hlt1 : (v1.take 8).length = 8 := by rw [List.length_take]; omega
        have hlt2 : (v2.take 8).length = 8 := by rw [List.length_take]; omega
        have hbt1 : ∀ b ∈ v1.take 8, b < 256 := fun b hb => hb1 b (List.take_subset 8 v1 hb)
        have hbt2 : ∀ b ∈ v2.take 8, b < 256 := fun b hb => hb2 b (List.take_subset 8 v2 hb)
        by_cases hw : leVal (v1.take 8) = leVal (v2.take 8)
        · have htake : v1.take 8 = v2.take 8 :=
            (leVal_inj _ _ (by omega) hbt1 hbt2).mp hw
          have hunf : offWordsLoop s v1 v2 pos =
              offWordsLoop s (v1.drop 8) (v2.drop 8) (pos + 8) := by
            rw [offWordsLoop_eq_long s v1 v2 pos hge]
            simp [hw]
          have hdl : (v1.drop 8).length = n - 8 := by rw [List.length_drop]; omega
          have hrec := ih (n - 8) (by omega) (v1.drop 8) (v2.drop 8) (pos + 8) hdl
            (by rw [List.length_drop, List.length_drop]; omega)
            (fun b hb => hb1 b (List.drop_subset 8 v1 hb))
            (fun b hb => hb2 b (List.drop_subset 8 v2 hb))
          have hpreeq : ∀ j, j < 8 → v1.getD j 0 = v2.getD j 0 := by
            intro j hj
            rw [← getD_take v1 8 j hj, ← getD_take v2 8 j hj, htake]
          have hfull : v1 = v2 ↔ v1.drop 8 = v2.drop 8 := by
            constructor
            · intro h; rw [h]
            · intro h
              conv_lhs => rw [← List.take_append_drop 8 v1]
              conv_rhs => rw [← List.take_append_drop 8 v2]
              rw [htake, h]
          constructor
          · rw [hunf, hrec.1]
            exact hfull.symm
          · intro d hd
            have hd8 : 8 ≤ d := by
              by_contra hcon
              exact hd.1 (hpreeq d (by omega))
            have hfd : firstDiff (v1.drop 8) (v2.drop 8) (d - 8) := by
              constructor
              · rw [getD_drop, getD_drop]
                rw [show 8 + (d - 8) = d by omega]
                exact hd.1
              · intro j hj
                rw [getD_drop, getD_drop]
                exact hd.2 (8 + j) (by omega)
            rw [hunf, hrec.2 (d - 8) hfd]
            have harith : pos + 8 + (if d - 8 < 8 * ((n - 8) / 8) then ((d - 8) / s) * s else d - 8)
                = pos + (if d < 8 * (n / 8) then (d / s) * s else d) := by
              have hn8 : 8 ≤ n := by omega
              rcases hs with rfl | rfl | rfl | rfl <;>
                (by_cases hc : d - 8 < 8 * ((n - 8) / 8) <;>
                  by_cases hc2 : d < 8 * (n / 8) <;>
                  simp only [hc, hc2, if_true, if_false] <;> omega)
            rw [← harith]
        · have hunf : offWordsLoop s v1 v2 pos =
              (((ctz (leVal (v1.take 8) ^^^ leVal (v2.take 8)) / (s * 8)) * s + pos : Nat) : Int) := by
            rw [offWordsLoop_eq_long s v1 v2 pos hge]
            simp [hw]
          constructor
          · rw [hunf]
            constructor
            · intro h
              have := Int.natCast_nonneg ((ctz (leVal (v1.take 8) ^^^ leVal (v2.take 8)) / (s * 8)) * s + pos)
              omega
            · intro h
              rw [h] at hw
              exact absurd rfl hw
          · intro d hd
            have hdlt : d < 8 := by
              by_contra hcon
              push_neg at hcon
              apply hw
              congr 1
              exact take_eq_of_getD v1 v2 8 hlen (fun j hj => hd.2 j (by omega))
            have hkey := ctz_xor_leVal (v1.take 8) (v2.take 8) (by omega) hbt1 hbt2 d
              (by omega)
              (fun j hj => by
                rw [getD_take v1 8 j (by omega), getD_take v2 8 j (by omega)]
                exact hd.2 j hj)
              (by
                rw [getD_take v1 8 d hdlt, getD_take v2 8 d hdlt]
                exact hd.1)
            rw [hunf]
            have hcond : d < 8 * (n / 8) := by
              have : 1 ≤ n / 8 := by omega
              omega
            simp only [hcond, if_true]
            have hval : (ctz (leVal (v1.take 8) ^^^ leVal (v2.take 8)) / (s * 8)) * s = (d / s) * s := by
              rcases hs with rfl | rfl | rfl | rfl <;> omega
            rw [hval]
            congr 1
            omega
      · have hunf : offWordsLoop s v1 v2 pos = offBytesLoop v1 v2 pos := by
          exact offWordsLoop_eq_short s v1 v2 pos (by omega)
        have hbs := offBytesLoop_spec v1 v2 pos hlen
        constructor
        · rw [hunf]; exact hbs.1
        · intro d hd
          have hcond : ¬ (d < 8 * (n / 8)) := by
            have : n / 8 = 0 := by omega
            omega
          rw [hunf, hbs.2 d hd]
          simp only [hcond, if_false]

/-- Claim C9, amended. For byte images of common length n and element size
s ∈ {1,2,4,8}: offmemcmp_generic returns -1 exactly when the images are
byte-for-byte equal. Otherwise, writing d for the offset of the
lowest-offset differing byte, the returned offset is (d / s) * s — the
start of the element containing d, a multiple of s — whenever d lies in
the word-scanned region (d < 8 * (n / 8)); when d lies in the trailing
n mod 8 bytes, scanned by the byte loop, the returned offset is d itself,
which need not be a multiple of s. In both cases the result is at most d
and less than n. -/
theorem offmemcmp_generic_spec (v1 v2 : List Nat) (s : Nat)
    (hs : s = 1 ∨ s = 2 ∨ s = 4 ∨ s = 8)
    (hlen : v1.length = v2.length)
    (hb1 : ∀ b ∈ v1, b < 256) (hb2 : ∀ b ∈ v2, b < 256) :
    (offmemcmp_generic v1 v2 s = -1 ↔ v1 = v2) ∧
    (∀ d, firstDiff v1 v2 d →
      d < v1.length ∧
      offmemcmp_generic v1 v2 s =
        (((if d < 8 * (v1.length / 8) then (d / s) * s else d) : Nat) : Int)) := by
  have h := offWordsLoop_spec s hs v1.length v1 v2 0 rfl hlen hb1 hb2
  refine ⟨h.1, ?_⟩
  intro d hd
  have hdlt : d < v1.length := by
    by_contra hcon
    push_neg at hcon
    apply hd.1
    rw [List.getD_eq_default v1 0 hcon, List.getD_eq_default v2 0 (by omega)]
  refine ⟨hdlt, ?_⟩
  have h2 := h.2 d hd
  rw [offmemcmp_generic, h2]
  congr 1
  omega

/-- Claim C9 counterexample. With element size s = 2 and images [0,0] and
[0,1] of common length n = 2, the lowest-offset differing byte sits at
offset 1, inside the element that starts at offset 0; the claim demands the
element's start offset (a multiple of 2), yet offmemcmp_generic returns 1,
which is not a multiple of 2. -/
theorem offmemcmp_generic_cex :
    offmemcmp_generic [0, 0] [0, 1] 2 = 1 ∧ (∀ k : Nat, ((2 * k : Nat) : Int) ≠ 1) := by
  refine ⟨by decide, ?_⟩
  intro k
  omega

/-- Witness for offmemcmp_generic_spec at a concrete input: images [1,2]
and [1,3] of length 2 with element size 2 differ first at byte offset 1,
which lies in the byte-loop tail, so the function returns 1. -/
theorem offmemcmp_generic_spec_witness :
    offmemcmp_generic [1, 2] [1, 3] 2 = 1 := by
  have h := (offmemcmp_generic_spec [1, 2] [1, 3] 2 (by norm_num) (by decide)
    (by decide) (by decide)).2 1 (by decide)
  have h2 := h.2
  norm_num at h2
  exact h2

/-- Claim C10: var_format_value returns NULL exactly when the encoding is
none of signed integer, unsigned integer, float or pointer; and for a
supported encoding whose byte size is outside its supported set ({1,2,4,8}
for signed/unsigned, {4,8,16} for float, {4,8} for pointer) it returns the
destination buffer without having written anything into it. -/
theorem var_format_value_spec (v : VarValue) (encoding byte_size : Nat) :
    (var_format_value v encoding byte_size = .null ↔
      encoding ≠ ENC_SIGNED ∧ encoding ≠ ENC_UNSIGNED ∧
      encoding ≠ ENC_FLOAT ∧ encoding ≠ ENC_POINTER) ∧
    ((((encoding = ENC_SIGNED ∨ encoding = ENC_UNSIGNED) ∧
        byte_size ≠ 1 ∧ byte_size ≠ 2 ∧ byte_size ≠ 4 ∧ byte_size ≠ 8) ∨
      (encoding = ENC_FLOAT ∧ byte_size ≠ 4 ∧ byte_size ≠ 8 ∧ byte_size ≠ 16) ∨
      (encoding = ENC_POINTER ∧ byte_size ≠ 4 ∧ byte_size ≠ 8)) →
      var_format_value v encoding byte_size = .untouched) := by
  unfold var_format_value
  constructor
  · by_cases h1 : encoding = ENC_SIGNED <;>
      by_cases h2 : encoding = ENC_UNSIGNED <;>
      by_cases h3 : encoding = ENC_FLOAT <;>
      by_cases h4 : encoding = ENC_POINTER <;>
      simp only [h1, h2, h3, h4, if_true, if_false] <;>
      first
        | (constructor
           · intro hh
             split_ifs at hh <;> simp_all
           · intro hh
             simp_all [ENC_SIGNED, ENC_UNSIGNED, ENC_FLOAT, ENC_POINTER])
        | (split_ifs <;> simp_all [ENC_SIGNED, ENC_UNSIGNED, ENC_FLOAT, ENC_POINTER])
        | (simp [h1, h2, h3, h4])
  · intro hcase
    rcases hcase with ⟨he, hb1, hb2, hb3, hb4⟩ | ⟨he, hb1, hb2, hb3⟩ | ⟨he, hb1, hb2⟩
    · rcases he with he | he <;>
        simp [he, hb1, hb2, hb3, hb4, ENC_SIGNED, ENC_UNSIGNED, ENC_FLOAT, ENC_POINTER]
    · simp [he, hb1, hb2, hb3, ENC_SIGNED, ENC_UNSIGNED, ENC_FLOAT, ENC_POINTER]
    · simp [he, hb1, hb2, ENC_SIGNED, ENC_UNSIGNED, ENC_FLOAT, ENC_POINTER]

/-- Witness for var_format_value_spec: a signed integer of 12 bytes —
a size the formatter does not support — leaves the buffer untouched. -/
theorem var_format_value_spec_witness :
    var_format_value ⟨0, 0⟩ ENC_SIGNED 12 = .untouched :=
  (var_format_value_spec ⟨0, 0⟩ ENC_SIGNED 12).2 (Or.inl ⟨Or.inl rfl, by decide⟩)

theorem mem_tryAddLoop (line_no : Nat) (rest : List DwLine) :
    ∀ (bps : List Breakpoint) (b : Breakpoint), b ∈ bps → b ∈ tryAddLoop line_no rest bps := by
  induction rest with
  | nil => intro bps b hb; exact hb
  | cons line rest ih =>
      intro bps b hb
      unfold tryAddLoop
      split_ifs with h1 h2 h3
      · exact hb
      · exact ih bps b hb
      · exact hb
      · refine ih _ b ?_
        exact List.mem_append_left _ hb

theorem mem_try_add_symbol (lines : List DwLine) (line_no : Nat)
    (bps : List Breakpoint) (b : Breakpoint) (hb : b ∈ bps) :
    b ∈ try_add_symbol lines line_no bps := by
  simp only [try_add_symbol]
  split_ifs with h
  · exact hb
  · exact mem_tryAddLoop line_no _ bps b hb

theorem mem_static_analysis_foldl (lines : List DwLine) :
    ∀ (ols : List Nat) (bps : List Breakpoint) (b : Breakpoint), b ∈ bps →
      b ∈ ols.foldl (fun acc ln => try_add_symbol lines ln acc) bps := by
  intro ols
  induction ols with
  | nil => intro bps b hb; exact hb
  | cons ln ols ih =>
      intro bps b hb
      exact ih _ b (mem_try_add_symbol lines ln bps b hb)

/-- Claim C4, amended. The static-filtered plan always contains the
function's entry address (seeded with line number 0) together with the
address of the last record of the lines list, whatever the analyzer oracle
adds. The all-statements plan consists of exactly the addresses of records
whose type is exactly statement-begin: it contains the entry address, or
the final statement's address, if and only if some statement-begin record
carries that address — neither address is added on its own. -/
theorem bp_plan_spec (lines : List DwLine) (low_pc : Nat) (oracleLines : List Nat)
    (hne : lines ≠ []) :
    ((∃ b ∈ static_analysis lines low_pc oracleLines, b.addr = low_pc) ∧
     (∃ b ∈ static_analysis lines low_pc oracleLines,
        b.addr = (lines.getLast hne).addr)) ∧
    (∀ a, (∃ b ∈ bp_createlist lines, b.addr = a) ↔
      (∃ l ∈ lines, l.line_type = LBEGIN_STMT ∧ l.addr = a)) := by
  constructor
  · have hlast : lines.getLast? = some (lines.getLast hne) := List.getLast?_eq_getLast lines hne
    constructor
    · refine ⟨{ addr := low_pc, original_byte := 0, line_no := 0 }, ?_, rfl⟩
      apply mem_static_analysis_foldl
      simp [hlast]
    · refine ⟨⟨(lines.getLast hne).addr, 0, (lines.getLast hne).line_no⟩, ?_, rfl⟩
      apply mem_static_analysis_foldl
      simp [hlast]
  · intro a
    constructor
    · rintro ⟨b, hb, rfl⟩
      rw [bp_createlist, List.mem_filterMap] at hb
      obtain ⟨l, hl, hsome⟩ := hb
      by_cases ht : l.line_type = LBEGIN_STMT
      · rw [if_pos ht] at hsome
        refine ⟨l, hl, ht, ?_⟩
        cases hsome
        rfl
      · rw [if_neg ht] at hsome
        cases hsome
    · rintro ⟨l, hl, ht, rfl⟩
      refine ⟨{ addr := l.addr, original_byte := 0, line_no := l.line_no }, ?_, rfl⟩
      rw [bp_createlist, List.mem_filterMap]
      exact ⟨l, hl, by rw [if_pos ht]⟩

/-- Claim C4 counterexample: under the all-statements plan, with a lines
list whose only statement-begin record sits at address 0x101 while the
function's entry address is 0x100, the planned set is {0x101}: it does not
contain the entry address, refuting the claim for the all-statements
plan. -/
theorem bp_plan_cex :
    bp_createlist [⟨0x101, 3, LBEGIN_STMT⟩] = [⟨0x101, 0, 3⟩] ∧
    (∀ b ∈ bp_createlist [⟨0x101, 3, LBEGIN_STMT⟩], b.addr ≠ 0x100) :=
  ⟨rfl, by decide⟩

/-- Witness for bp_plan_spec at a concrete lines list. -/
theorem bp_plan_spec_witness :
    ∃ b ∈ static_analysis [⟨0x100, 1, 1⟩, ⟨0x140, 9, 1⟩] 0x100 [], b.addr = 0x100 :=
  ((bp_plan_spec [⟨0x100, 1, 1⟩, ⟨0x140, 9, 1⟩] 0x100 [] (List.cons_ne_nil _ _)).1).1

/-- Claim C5: the code violates it. With --avoid-equal-statements set
(FLG_IGNR_EQSTAT) and two statement-begin records for the same source line
5 at addresses 0x100 and 0x108, the runtime breakpoint list retains both
addresses: readargs records the flag (main.c lines 764-766) but no other
code ever tests it, so the plan selection (main.c lines 223-225) is
independent of the flag and bp_createlist keeps every statement-begin
record whatever its line number. -/
theorem avoid_equal_statements_ignored :
    choose_breakpoints FLG_IGNR_EQSTAT
        [⟨0x100, 5, LBEGIN_STMT⟩, ⟨0x108, 5, LBEGIN_STMT⟩] 0x100 [] =
      [⟨0x100, 0, 5⟩, ⟨0x108, 0, 5⟩] ∧
    choose_breakpoints FLG_IGNR_EQSTAT
        [⟨0x100, 5, LBEGIN_STMT⟩, ⟨0x108, 5, LBEGIN_STMT⟩] 0x100 [] =
      choose_breakpoints 0
        [⟨0x100, 5, LBEGIN_STMT⟩, ⟨0x108, 5, LBEGIN_STMT⟩] 0x100 [] :=
  ⟨rfl, rfl⟩

/-- Claim C6 counterexample. On the 12-byte integer descriptor — exactly
the spec's example of under-specified storage — var_initialize does not
silently skip: var_read returns -1 and the QUIT aborts the entire run
("wrong size type!"), so the run does not continue past the descriptor. -/
theorem unsupported_size_aborts :
    var_initialize [int12Var] [⟨0, 0, []⟩] = .error () := rfl

/-- Claim C6, amended. A descriptor whose type class the reader does not
handle (neither base/enum/pointer nor array-of-those) is silently skipped
by var_initialize and by var_check_changes — the run continues and no
event is emitted for it — and its existence is still printed by dump-all.
But a base-like descriptor whose byte size is neither at most 8 nor
exactly 16 aborts the run at snapshot initialization. -/
theorem unsupported_descriptor_spec (v : DwVariable) (r : ReadVal) (g : VarValue)
    (idx : List Nat) (depth line : Nat) :
    ((v.var_type &&& (TBASE_TYPE ||| TENUM ||| TPOINTER) = 0 ∧ v.var_type ≠ TARRAY) →
      var_initialize_one v r = .ok v ∧
      var_check_one depth line v r g idx = (v, [], g, idx)) ∧
    ((v.var_type = TARRAY ∧ v.arr_var_type &&& (TBASE_TYPE ||| TENUM ||| TPOINTER) = 0) →
      var_initialize_one v r = .ok v ∧
      var_check_one depth line v r g idx = (v, [], g, idx)) ∧
    ((v.var_type &&& (TBASE_TYPE ||| TENUM ||| TPOINTER) ≠ 0 ∧
        ¬ v.byte_size ≤ 8 ∧ v.byte_size ≠ 16) →
      var_initialize_one v r = .error ()) ∧
    (∀ vars, v ∈ vars → v.name ∈ var_dump vars) := by
  refine ⟨?_, ?_, ?_, ?_⟩
  · rintro ⟨h1, h2⟩
    constructor
    · rw [var_initialize_one, if_neg (by simpa using h1), if_neg h2]
    · rw [var_check_one, if_neg (by simpa using h1), if_neg h2]
  · rintro ⟨h1, h2⟩
    have hmask : ¬ v.var_type &&& (TBASE_TYPE ||| TENUM ||| TPOINTER) ≠ 0 := by
      rw [h1]; decide
    constructor
    · rw [var_initialize_one, if_neg hmask, if_pos h1, if_neg (by simpa using h2)]
    · rw [var_check_one, if_neg hmask, if_pos h1, if_neg (by simpa using h2)]
  · rintro ⟨h1, h2, h3⟩
    rw [var_initialize_one, if_pos h1]
    have hread : var_read v r = .fail := by
      rw [var_read, if_pos h1, if_neg h2, if_neg h3]
    by_cases hscope : v.scope ≠ VGLOBAL
    · rw [if_pos hscope, hread]
    · rw [if_neg hscope, hread]
  · intro vars hv
    rw [var_dump]
    exact List.mem_map_of_mem (fun v => v.name) hv

/-- Witness for unsupported_descriptor_spec: the structure descriptor is
skipped by var_initialize, and the 12-byte integer aborts. -/
theorem unsupported_descriptor_spec_witness :
    var_initialize_one structVar ⟨0, 0, []⟩ = .ok structVar ∧
    var_initialize_one int12Var ⟨0, 0, []⟩ = .error () := by
  constructor
  · exact ((unsupported_descriptor_spec structVar ⟨0, 0, []⟩ ⟨0, 0⟩ [] 0 0).1 (by decide)).1
  · exact (unsupported_descriptor_spec int12Var ⟨0, 0, []⟩ ⟨0, 0⟩ [] 0 0).2.2.1 (by decide)

/-- Claim C3 is violated by the code on 16-byte integers. First write to
the local __int128 "q": the scratch image is (5,7), the new value (5,8).
The change is detected and reported as state "initialized", but the
synthesized before value only zeroes u64_value[0] — the line
`v->scratch_value.u64_value[0] = 0;` appears twice in variable.c (lines
587-588) where the second should set u64_value[1] — so the reported
before union is (0,7): its high eight bytes are still the scratch bytes
read at frame entry, not the encoding's zero. Moreover var_format_value
writes nothing for a 16-byte signed integer, so the printed before string
is whatever the static buffer held, not "0". -/
theorem int128_first_write_before_not_zero :
    (var_check_changes 10 1 [int128Var] [⟨5, 8, []⟩] ⟨0, 0⟩).2 =
      [Event.change 1 10 "q" VLOCAL false (VVal.scalar ⟨0, 7⟩) (VVal.scalar ⟨5, 8⟩) none] ∧
    (7 : Nat) ≠ 0 ∧
    var_format_value ⟨0, 7⟩ ENC_SIGNED 16 = .untouched :=
  ⟨rfl, by decide, rfl⟩

/-- Claim C2 is violated by the code when one var_check_changes call
reports changes for more than one array variable. Array "a" changes at
element offset 3 (multi-index [1][1], correctly reported); array "b"
changes at element offset 1, whose multi-index is [0][1], but the shared
index_per_dimension buffer is never reset between variables and the digit
loop stops as soon as div reaches 0, so the leading digit keeps a's value
and "b" is reported as [1][1]. The round-trip of the reported index gives
offset (1*2+1)*1 = 3, not the actual offset 1. -/
theorem array_stale_index_bug :
    (var_check_changes 12 1 [arrVarA, arrVarB]
        [⟨0, 0, [0, 0, 0, 9]⟩, ⟨0, 0, [0, 7, 0, 0]⟩] ⟨0, 0⟩).2 =
      [Event.change 1 12 "a" VGLOBAL true (VVal.bytes [0]) (VVal.bytes [9]) (some [1, 1]),
       Event.change 1 12 "b" VGLOBAL true (VVal.bytes [0]) (VVal.bytes [7]) (some [1, 1])] ∧
    (1 * 2 + 1) * 1 ≠ 1 :=
  ⟨rfl, by decide⟩

theorem countEnter_append (D : Nat) (a b : List Event) :
    countEnter D (a ++ b) = countEnter D a + countEnter D b := by
  rw [countEnter, countEnter, countEnter, List.filter_append, List.length_append]

theorem countReturn_append (D : Nat) (a b : List Event) :
    countReturn D (a ++ b) = countReturn D a + countReturn D b := by
  rw [countReturn, countReturn, countReturn, List.filter_append, List.length_append]

theorem countEnter_of_changes (D : Nat) (l : List Event)
    (h : ∀ ev ∈ l, isChangeEv ev = true) : countEnter D l = 0 := by
  rw [countEnter]
  have : l.filter (isEnteringD D) = [] := by
    rw [List.filter_eq_nil]
    intro ev hev
    have hch := h ev hev
    cases ev <;> simp_all [isChangeEv, isEnteringD]
  rw [this]
  rfl

theorem countReturn_of_changes (D : Nat) (l : List Event)
    (h : ∀ ev ∈ l, isChangeEv ev = true) : countReturn D l = 0 := by
  rw [countReturn]
  have : l.filter (isReturningD D) = [] := by
    rw [List.filter_eq_nil]
    intro ev hev
    have hch := h ev hev
    cases ev <;> simp_all [isChangeEv, isReturningD]
  rw [this]
  rfl

theorem arrayDiffLoop_events_change (depth line : Nat) (v : DwVariable) (v1 v2 : List Nat) :
    ∀ (fuel cur size : Nat) (idx : List Nat),
      ∀ ev ∈ (arrayDiffLoop depth line v v1 v2 fuel cur size idx).1, isChangeEv ev = true := by
  intro fuel
  induction fuel with
  | zero =>
      intro cur size idx ev hev
      simp [arrayDiffLoop] at hev
  | succ f ih =>
      intro cur size idx ev hev
      simp only [arrayDiffLoop] at hev
      by_cases h1 : cur < v.byte_size
      · rw [if_pos h1] at hev
        by_cases h2 : 0 ≤ offmemcmp_generic ((v1.drop cur).take size) ((v2.drop cur).take size)
            v.size_per_element
        · rw [if_pos h2] at hev
          simp only [List.mem_cons] at hev
          rcases hev with rfl | hev
          · rfl
          · exact ih _ _ _ ev hev
        · rw [if_neg h2] at hev
          simp at hev
      · rw [if_neg h1] at hev
        simp at hev

theorem var_check_one_events_change (depth line : Nat) (v : DwVariable) (r : ReadVal)
    (g : VarValue) (idx : List Nat) :
    ∀ ev ∈ (var_check_one depth line v r g idx).2.1, isChangeEv ev = true := by
  intro ev hev
  simp only [var_check_one] at hev
  split_ifs at hev <;>
    first
      | (exact absurd hev (List.not_mem_nil ev))
      | (rw [List.mem_singleton] at hev; subst hev; rfl)
      | (exact arrayDiffLoop_events_change depth line v v.arrValue r.bytes _ _ _ _ ev hev)

theorem var_check_go_events_change (depth line : Nat) :
    ∀ (vs : List DwVariable) (rs : List ReadVal) (g : VarValue) (idx : List Nat),
      ∀ ev ∈ (var_check_go depth line vs rs g idx).2, isChangeEv ev = true := by
  intro vs
  induction vs with
  | nil =>
      intro rs g idx ev hev
      cases rs <;> simp [var_check_go] at hev
  | cons v vs ih =>
      intro rs g idx ev hev
      cases rs with
      | nil => simp [var_check_go] at hev
      | cons r rs =>
          simp only [var_check_go, List.mem_append] at hev
          rcases hev with hev | hev
          · exact var_check_one_events_change depth line v r g idx ev hev
          · exact ih rs _ _ ev hev

theorem var_check_changes_events_change (b_line depth : Nat) (vars : List DwVariable)
    (reads : List ReadVal) (g0 : VarValue) :
    ∀ ev ∈ (var_check_changes b_line depth vars reads g0).2, isChangeEv ev = true := by
  intro ev hev
  exact var_check_go_events_change depth b_line vars reads g0 _ ev hev

theorem step_entry_proj (s : LoopState) (line : Nat) :
    ∃ s', do_analysis_step s (.entry line) = .ok s' ∧
      s'.context.length =
        (if 0 < s.context.length ∧ 0 < s.depth then s.context.length + 1
         else s.context.length) ∧
      s'.depth = s.depth + 1 ∧ s'.init_vars = true ∧ s'.prev_line = some line ∧
      s'.events = s.events := by
  refine ⟨_, rfl, ?_, rfl, rfl, rfl, rfl⟩
  simp only [do_analysis_step]
  split_ifs with h
  · simp
  · rfl

theorem step_ret_proj (s : LoopState) (hlen : 1 ≤ s.context.length) :
    ∃ s', do_analysis_step s .ret = .ok s' ∧
      s'.context.length =
        (if 1 < s.context.length then s.context.length - 1 else s.context.length) ∧
      s'.depth = s.depth - 1 ∧ s'.init_vars = s.init_vars ∧ s'.prev_line = s.prev_line ∧
      s'.events = s.events ++ [Event.returning s.context.length] ∧
      1 ≤ s'.context.length := by
  refine ⟨_, rfl, ?_, rfl, rfl, rfl, rfl, ?_⟩
  · simp only [do_analysis_step]
    have hl1 : (s.context.dropLast ++ [free_arrays ((s.context.getLast?).getD [])]).length =
        s.context.length := by
      rw [List.length_append, List.length_dropLast]
      simp
      omega
    split_ifs with h
    · rw [List.length_dropLast, hl1]
    · exact hl1
  · simp only [do_analysis_step]
    have hl1 : (s.context.dropLast ++ [free_arrays ((s.context.getLast?).getD [])]).length =
        s.context.length := by
      rw [List.length_append, List.length_dropLast]
      simp
      omega
    split_ifs with h
    · rw [List.length_dropLast, hl1]; omega
    · rw [hl1]; omega

theorem step_ordinary_proj (s : LoopState) (line : Nat) (reads : List ReadVal)
    (s' : LoopState) (hok : do_analysis_step s (.ordinary line reads) = .ok s')
    (hlen : 1 ≤ s.context.length) :
    s'.context.length = s.context.length ∧ s'.depth = s.depth ∧ s'.init_vars = false ∧
    s'.prev_line = some line ∧
    ∃ Δ, s'.events = s.events ++ Δ ∧
      (s.init_vars = false → ∀ ev ∈ Δ, isChangeEv ev = true) ∧
      (s.init_vars = true → ∃ Δ2, Δ = Event.entering s.context.length :: Δ2 ∧
        ∀ ev ∈ Δ2, isChangeEv ev = true) := by
  have hctxlen : ∀ f2 : List DwVariable, (s.context.dropLast ++ [f2]).length = s.context.length := by
    intro f2
    rw [List.length_append, List.length_dropLast]
    simp
    omega
  cases hiv : s.init_vars with
  | true =>
    simp only [do_analysis_step, hiv, if_true] at hok
    cases hinit : var_initialize ((s.context.getLast?).getD []) reads with
    | error e => rw [hinit] at hok; cases hok
    | ok f1 =>
        rw [hinit] at hok
        simp only at hok
        cases hok
        refine ⟨hctxlen _, rfl, rfl, rfl, ?_⟩
        cases hprev : s.prev_line with
        | none =>
            refine ⟨[Event.entering s.context.length], by simp, ?_, ?_⟩
            · intro h; exact absurd h (by decide)
            · intro _; exact ⟨[], rfl, by intro ev hev; cases hev⟩
        | some pl =>
            refine ⟨Event.entering s.context.length ::
              (var_check_changes pl s.context.length f1 reads ⟨0, 0⟩).2, by simp, ?_, ?_⟩
            · intro h; exact absurd h (by decide)
            · intro _
              exact ⟨_, rfl, var_check_changes_events_change pl s.context.length f1 reads ⟨0, 0⟩⟩
  | false =>
    simp only [do_analysis_step, hiv, Bool.false_eq_true, if_false] at hok
    cases hok
    refine ⟨hctxlen _, rfl, rfl, rfl, ?_⟩
    cases hprev : s.prev_line with
    | none =>
        refine ⟨[], by simp, ?_, ?_⟩
        · intro _ ev hev; cases hev
        · intro h; exact absurd h (by decide)
    | some pl =>
        refine ⟨(var_check_changes pl s.context.length ((s.context.getLast?).getD [])
          reads ⟨0, 0⟩).2, by simp, ?_, ?_⟩
        · intro _
          exact var_check_changes_events_change pl s.context.length _ reads ⟨0, 0⟩
        · intro h; exact absurd h (by decide)

theorem do_analysis_run_cons (s : LoopState) (st : Stop) (rest : List Stop) :
    do_analysis_run s (st :: rest) =
      (match do_analysis_step s st with
       | .ok s' => do_analysis_run s' rest
       | .error e => .error e) := rfl

theorem do_analysis_run_append (l1 l2 : List Stop) : ∀ s : LoopState,
    do_analysis_run s (l1 ++ l2) =
      (match do_analysis_run s l1 with
       | .ok s1 => do_analysis_run s1 l2
       | .error e => .error e) := by
  induction l1 with
  | nil => intro s; rfl
  | cons st rest ih =>
      intro s
      rw [List.cons_append, do_analysis_run_cons, do_analysis_run_cons]
      cases do_analysis_step s st with
      | ok s' => exact ih s'
      | error e => rfl

theorem countEnter_returning_single (D L : Nat) :
    countEnter D [Event.entering L] = countReturn D [Event.returning L] := by
  by_cases h : L = D
  · subst h
    simp [countEnter, countReturn, isEnteringD, isReturningD, List.filter]
  · have hb : (L == D) = false := by simpa using h
    simp [countEnter, countReturn, isEnteringD, isReturningD, List.filter, hb]

/-- Balanced depth messages over any well-formed trace: processing it from
a state with init_vars clear, nonnegative depth, at least one frame and at
most one frame at depth 0, restores the frame-stack size and depth, keeps
init_vars clear, and appends events in which every "entering depth D"
message is matched by exactly one "returning to depth D" message. -/
theorem run_body_balanced (t : List Stop) (hb : Body t) :
    ∀ s : LoopState, s.init_vars = false → 0 ≤ s.depth →
      (s.depth = 0 → s.context.length ≤ 1) → 1 ≤ s.context.length →
      ∀ s', do_analysis_run s t = .ok s' →
        s'.context.length = s.context.length ∧ s'.depth = s.depth ∧
        s'.init_vars = false ∧
        ∃ Δ, s'.events = s.events ++ Δ ∧
          ∀ D, countEnter D Δ = countReturn D Δ := by
  induction hb with
  | nil =>
      intro s hiv hd0 hd1 hlen s' hrun
      cases hrun
      exact ⟨rfl, rfl, hiv, [], by simp, fun D => rfl⟩
  | ord line reads b hbody ih =>
      intro s hiv hd0 hd1 hlen s' hrun
      rw [do_analysis_run_cons] at hrun
      cases hstep : do_analysis_step s (.ordinary line reads) with
      | error e => rw [hstep] at hrun; cases hrun
      | ok s1 =>
          rw [hstep] at hrun
          have hrunA : do_analysis_run s1 b = .ok s' := hrun
          obtain ⟨hl, hd, hiv1, _, Δ0, hev0, hf, _⟩ :=
            step_ordinary_proj s line reads s1 hstep hlen
          have hΔ0ch := hf hiv
          obtain ⟨ihl, ihd, ihiv, Δ1, ihev, ihbal⟩ := ih s1 hiv1
            (by rw [hd]; exact hd0)
            (by rw [hd, hl]; exact hd1)
            (by rw [hl]; exact hlen)
            s' hrunA
          refine ⟨by rw [ihl, hl], by rw [ihd, hd], ihiv, Δ0 ++ Δ1, ?_, ?_⟩
          · rw [ihev, hev0, List.append_assoc]
          · intro D
            rw [countEnter_append, countReturn_append,
              countEnter_of_changes D Δ0 hΔ0ch, countReturn_of_changes D Δ0 hΔ0ch,
              ihbal D]
  | call eline line reads inner b hbi hbb ihInner ihB =>
      intro s hiv hd0 hd1 hlen s' hrun
      rw [do_analysis_run_cons] at hrun
      obtain ⟨s1, hstep1, hl1, hd1', hiv1, _, hev1⟩ := step_entry_proj s eline
      rw [hstep1] at hrun
      have hrunA : do_analysis_run s1 (Stop.ordinary line reads :: (inner ++ Stop.ret :: b)) =
          .ok s' := hrun
      rw [do_analysis_run_cons] at hrunA
      cases hstep2 : do_analysis_step s1 (.ordinary line reads) with
      | error e => rw [hstep2] at hrunA; cases hrunA
      | ok s2 =>
          rw [hstep2] at hrunA
          have hrunB : do_analysis_run s2 (inner ++ Stop.ret :: b) = .ok s' := hrunA
          have hlen1 : 1 ≤ s1.context.length := by
            rw [hl1]; split_ifs <;> omega
          obtain ⟨hl2, hd2, hiv2, _, Δ0, hev2, _, ht⟩ :=
            step_ordinary_proj s1 line reads s2 hstep2 hlen1
          obtain ⟨Δ2, hΔ0, hΔ2ch⟩ := ht hiv1
          rw [do_analysis_run_append] at hrunB
          cases hrunInner : do_analysis_run s2 inner with
          | error e => rw [hrunInner] at hrunB; cases hrunB
          | ok s3 =>
              rw [hrunInner] at hrunB
              have hrunC : do_analysis_run s3 (Stop.ret :: b) = .ok s' := hrunB
              have hdep2 : s2.depth = s.depth + 1 := by rw [hd2, hd1']
              obtain ⟨ihl3, ihd3, ihiv3, Δi, hevi, hbali⟩ := ihInner s2 hiv2
                (by rw [hdep2]; omega)
                (by intro h0; rw [hdep2] at h0; omega)
                (by rw [hl2]; exact hlen1)
                s3 hrunInner
              rw [do_analysis_run_cons] at hrunC
              have hlen3 : 1 ≤ s3.context.length := by
                rw [ihl3, hl2]; exact hlen1
              obtain ⟨s4, hstep4, hl4, hd4, hiv4, _, hev4, hlen4⟩ := step_ret_proj s3 hlen3
              rw [hstep4] at hrunC
              have hrunD : do_analysis_run s4 b = .ok s' := hrunC
              have hL1 : s3.context.length = s1.context.length := by rw [ihl3, hl2]
              have hd3' : s3.depth = s.depth + 1 := by rw [ihd3, hdep2]
              have hlen4eq : s4.context.length = s.context.length := by
                by_cases hds : 0 < s.depth
                · have h1 : s1.context.length = s.context.length + 1 := by
                    rw [hl1, if_pos ⟨by omega, hds⟩]
                  rw [hl4, hL1, h1, if_pos (by omega)]
                  omega
                · have hz : s.depth = 0 := by omega
                  have hle1 := hd1 hz
                  have h1 : s1.context.length = s.context.length := by
                    rw [hl1, if_neg (fun hc => hds hc.2)]
                  rw [hl4, hL1, h1, if_neg (by omega)]
              have hd4eq : s4.depth = s.depth := by
                rw [hd4, hd3']; omega
              have hiv4eq : s4.init_vars = false := by rw [hiv4, ihiv3]
              obtain ⟨ihl5, ihd5, ihiv5, Δb, hevb, hbalb⟩ := ihB s4 hiv4eq
                (by rw [hd4eq]; exact hd0)
                (by rw [hd4eq, hlen4eq]; exact hd1)
                (by rw [hlen4eq]; exact hlen)
                s' hrunD
              refine ⟨by rw [ihl5, hlen4eq], by rw [ihd5, hd4eq], ihiv5,
                Δ0 ++ Δi ++ [Event.returning s3.context.length] ++ Δb, ?_, ?_⟩
              · rw [hevb, hev4, hevi, hev2, hev1]
                simp [List.append_assoc]
              · intro D
                have hretD : Event.returning s3.context.length =
                    Event.returning s1.context.length := by rw [hL1]
                rw [hΔ0, hretD]
                have hhead : Event.entering s1.context.length :: Δ2 =
                    [Event.entering s1.context.length] ++ Δ2 := rfl
                rw [hhead]
                rw [countEnter_append, countEnter_append, countEnter_append,
                  countEnter_append, countReturn_append, countReturn_append,
                  countReturn_append, countReturn_append]
                rw [countEnter_of_changes D Δ2 hΔ2ch, countReturn_of_changes D Δ2 hΔ2ch]
                have hsing := countEnter_returning_single D s1.context.length
                have hz1 : countEnter D [Event.returning s1.context.length] = 0 := by
                  simp [countEnter, isEnteringD, List.filter]
                have hz2 : countReturn D [Event.entering s1.context.length] = 0 := by
                  simp [countReturn, isReturningD, List.filter]
                rw [hz1, hz2, hbali D, hbalb D, hsing]
                omega

/-- C8 (amended): after the child exits from any well-formed trace of
stops started in the setup state, every "entering depth D" message in the
output is matched by exactly one "returning to depth D" message; the
recursion counter `depth` increases by exactly 1 on every trap at the
function's entry address, while the frame stack grows by one frame there
only when the counter was already positive (the outermost call reuses the
bottom frame pre-created by setup); on every trap at the top frame's
return address the counter decreases by exactly 1, the frame stack shrinks
by one frame only while more than one frame exists, and a nonempty frame
stack stays nonempty — the bottom frame is never removed while the run is
in progress. -/
theorem depth_accounting_spec
    (vars0 : List DwVariable) (t : List Stop) (hb : Body t)
    (s' : LoopState) (hrun : do_analysis_run (init_state vars0) t = .ok s') :
    (∀ D, countEnter D s'.events = countReturn D s'.events) ∧
    (∀ (s s1 : LoopState) (el : Nat), do_analysis_step s (.entry el) = .ok s1 →
        s1.depth = s.depth + 1 ∧
        s1.context.length =
          (if 0 < s.context.length ∧ 0 < s.depth then s.context.length + 1
           else s.context.length)) ∧
    (∀ s s1 : LoopState, 1 ≤ s.context.length → do_analysis_step s .ret = .ok s1 →
        s1.depth = s.depth - 1 ∧
        s1.context.length =
          (if 1 < s.context.length then s.context.length - 1
           else s.context.length) ∧
        1 ≤ s1.context.length) := by
  refine ⟨?_, ?_, ?_⟩
  · obtain ⟨_, _, _, Δ, hev, hbal⟩ :=
      run_body_balanced t hb (init_state vars0) rfl (Int.le_refl 0)
        (fun _ => by exact Nat.le_refl 1) (Nat.le_refl 1) s' hrun
    intro D
    have hev' : s'.events = Δ := by
      rw [hev]; rfl
    rw [hev']
    exact hbal D
  · intro s s1 el hok
    obtain ⟨s2, hstep, hlen2, hd2, _, _, _⟩ := step_entry_proj s el
    rw [hstep] at hok
    cases hok
    exact ⟨hd2, hlen2⟩
  · intro s s1 hlen hok
    obtain ⟨s2, hstep, hlen2, hd2, _, _, _, hge⟩ := step_ret_proj s hlen
    rw [hstep] at hok
    cases hok
    exact ⟨hd2, hlen2, hge⟩

/-- C8 counterexample to the original claim: on the trap at the function's
entry address of the outermost call the frame stack does NOT grow — setup
pre-created the bottom frame, so the context still holds exactly one frame
after the entry step (the recursion counter, not the frame stack, is what
increments unconditionally). -/
theorem entry_trap_stack_cex :
    do_analysis_step (init_state []) (Stop.entry 4) =
      .ok { context := [[]]
            depth := 1
            init_vars := true
            prev_line := some 4
            events := [] } ∧
    (init_state []).context.length = 1 ∧
    ([([] : List DwVariable)] : List (List DwVariable)).length = 1 :=
  ⟨rfl, rfl, rfl⟩

/-- Witness for depth_accounting_spec: the concrete trace entry-at-line-4,
planned stop at line 7, return, run from a setup state with no variables,
ends with output [entering 1, returning 1], and the theorem instantiated
there gives the balanced count at D = 1. -/
theorem depth_accounting_spec_witness :
    countEnter 1 ({ context := [[]]
                    depth := 0
                    init_vars := false
                    prev_line := some 7
                    events := [Event.entering 1, Event.returning 1] } : LoopState).events =
      countReturn 1 ({ context := [[]]
                       depth := 0
                       init_vars := false
                       prev_line := some 7
                       events := [Event.entering 1, Event.returning 1] } : LoopState).events :=
  (depth_accounting_spec [] [Stop.entry 4, Stop.ordinary 7 [], Stop.ret]
      (Body.call 4 7 [] [] [] Body.nil Body.nil)
      { context := [[]]
        depth := 0
        init_vars := false
        prev_line := some 7
        events := [Event.entering 1, Event.returning 1] }
      rfl).1 1

theorem take_u64Bytes (sz : Nat) (w : VarValue) (hsz : sz ≤ 8) :
    List.take sz (u64Bytes w) = prefixImage sz w.lo := by
  obtain ⟨lo, hi⟩ := w
  rw [u64Bytes, prefixImage]
  rw [List.take_append_of_le_length (by simpa using hsz)]
  rw [← List.map_take, List.take_range, Nat.min_eq_left hsz]

theorem memDiffers_eq_prefixImage (sz : Nat) (hsz : sz ≤ 8) (a b : VarValue) :
    memDiffers sz a b = decide (prefixImage sz a.lo ≠ prefixImage sz b.lo) := by
  rw [memDiffers, take_u64Bytes sz a hsz, take_u64Bytes sz b hsz]

theorem var_check_one_scalar (depth line : Nat) (v : DwVariable) (r : ReadVal)
    (g : VarValue) (idx : List Nat)
    (hbase : v.var_type &&& (TBASE_TYPE ||| TENUM ||| TPOINTER) ≠ 0)
    (hsz : v.byte_size ≤ 8) (hinit : v.initialized = true) :
    var_check_one depth line v r g idx =
      (if memDiffers v.byte_size ⟨r.lo, g.hi⟩ v.value then
        ({ v with value := ⟨r.lo, g.hi⟩ },
         [Event.change depth line v.name v.scope true (.scalar v.value)
            (.scalar ⟨r.lo, g.hi⟩) none],
         ⟨r.lo, g.hi⟩, idx)
      else (v, [], ⟨r.lo, g.hi⟩, idx)) := by
  simp only [var_check_one, var_read, if_pos hbase, if_pos hsz, hinit, not_true,
    eq_self_iff_true, if_false, ite_false]

theorem step_ordinary_single (v : DwVariable) (d : Int) (pl l : Nat) (r : ReadVal)
    (evs : List Event) :
    do_analysis_step
      { context := [[v]]
        depth := d
        init_vars := false
        prev_line := some pl
        events := evs } (.ordinary l [r]) =
      .ok { context := [[(var_check_one 1 pl v r ⟨0, 0⟩
              (List.replicate MATRIX_MAX_DIMENSIONS 0)).1]]
            depth := d
            init_vars := false
            prev_line := some l
            events := evs ++ (var_check_one 1 pl v r ⟨0, 0⟩
              (List.replicate MATRIX_MAX_DIMENSIONS 0)).2.1 } := by
  simp only [do_analysis_step, var_check_changes, var_check_go, Bool.false_eq_true,
    if_false, List.getLast?_singleton, Option.getD_some, List.length_singleton,
    List.dropLast_single, List.append_nil, List.nil_append]

/-- Two consecutive ordinary planned stops over a single-variable frame,
in closed form: the second call of var_check_changes receives l1 — the
first stop's line — as its breakpoint line. -/
theorem run_two_ordinary (v : DwVariable) (d : Int) (l0 l1 l2 : Nat) (r1 r2 : ReadVal) :
    do_analysis_run
      { context := [[v]]
        depth := d
        init_vars := false
        prev_line := some l0
        events := [] } [.ordinary l1 [r1], .ordinary l2 [r2]] =
    .ok { context := [[(var_check_one 1 l1
            ((var_check_one 1 l0 v r1 ⟨0, 0⟩ (List.replicate MATRIX_MAX_DIMENSIONS 0)).1)
            r2 ⟨0, 0⟩ (List.replicate MATRIX_MAX_DIMENSIONS 0)).1]]
          depth := d
          init_vars := false
          prev_line := some l2
          events := (var_check_one 1 l0 v r1 ⟨0, 0⟩
              (List.replicate MATRIX_MAX_DIMENSIONS 0)).2.1 ++
            (var_check_one 1 l1
              ((var_check_one 1 l0 v r1 ⟨0, 0⟩ (List.replicate MATRIX_MAX_DIMENSIONS 0)).1)
              r2 ⟨0, 0⟩ (List.replicate MATRIX_MAX_DIMENSIONS 0)).2.1 } := by
  rw [do_analysis_run_cons, step_ordinary_single v d l0 l1 r1 []]
  show do_analysis_run
      { context := [[(var_check_one 1 l0 v r1 ⟨0, 0⟩
          (List.replicate MATRIX_MAX_DIMENSIONS 0)).1]]
        depth := d
        init_vars := false
        prev_line := some l1
        events := [] ++ (var_check_one 1 l0 v r1 ⟨0, 0⟩
          (List.replicate MATRIX_MAX_DIMENSIONS 0)).2.1 }
      [Stop.ordinary l2 [r2]] = _
  rw [do_analysis_run_cons, step_ordinary_single
    ((var_check_one 1 l0 v r1 ⟨0, 0⟩ (List.replicate MATRIX_MAX_DIMENSIONS 0)).1)
    d l1 l2 r2]
  rfl

/-- C1 (amended): for a monitored, already-initialized scalar variable of
at most 8 bytes, across two successive planned stops inside the function —
first at line l1 reading r1, then at line l2 reading r2 — the second
stop's processing emits exactly one change event when the variable's byte
image differs between the two stops and none otherwise; the event's
before-value carries the byte image observed at the first stop, its
after-value the image observed at the second, and it names l1, the line of
the FIRST of the two stops (the prev_bp breakpoint), not the second
stop's line l2. Events of the first stop's own processing (Δ1) all name
the line l0 of the stop before it. -/
theorem scalar_change_names_first_line
    (v : DwVariable)
    (hbase : v.var_type &&& (TBASE_TYPE ||| TENUM ||| TPOINTER) ≠ 0)
    (hsz : v.byte_size ≤ 8) (hinit : v.initialized = true)
    (d : Int) (l0 l1 l2 : Nat) (r1 r2 : ReadVal) :
    ∃ (Δ1 : List Event) (w : VarValue) (s' : LoopState),
      do_analysis_run
        { context := [[v]]
          depth := d
          init_vars := false
          prev_line := some l0
          events := [] } [.ordinary l1 [r1], .ordinary l2 [r2]] = .ok s' ∧
      List.take v.byte_size (u64Bytes w) = prefixImage v.byte_size r1.lo ∧
      s'.events = Δ1 ++
        (if prefixImage v.byte_size r2.lo ≠ prefixImage v.byte_size r1.lo then
          [Event.change 1 l1 v.name v.scope true (.scalar w)
            (.scalar ⟨r2.lo, 0⟩) none]
         else []) ∧
      (∀ ev ∈ Δ1, ∃ b a i, ev = Event.change 1 l0 v.name v.scope true b a i) := by
  have hone1 := var_check_one_scalar 1 l0 v r1 ⟨0, 0⟩
    (List.replicate MATRIX_MAX_DIMENSIONS 0) hbase hsz hinit
  have hkeep :
      ((var_check_one 1 l0 v r1 ⟨0, 0⟩
          (List.replicate MATRIX_MAX_DIMENSIONS 0)).1).var_type = v.var_type ∧
      ((var_check_one 1 l0 v r1 ⟨0, 0⟩
          (List.replicate MATRIX_MAX_DIMENSIONS 0)).1).byte_size = v.byte_size ∧
      ((var_check_one 1 l0 v r1 ⟨0, 0⟩
          (List.replicate MATRIX_MAX_DIMENSIONS 0)).1).initialized = true ∧
      ((var_check_one 1 l0 v r1 ⟨0, 0⟩
          (List.replicate MATRIX_MAX_DIMENSIONS 0)).1).name = v.name ∧
      ((var_check_one 1 l0 v r1 ⟨0, 0⟩
          (List.replicate MATRIX_MAX_DIMENSIONS 0)).1).scope = v.scope := by
    rw [hone1]
    split_ifs <;> exact ⟨rfl, rfl, hinit, rfl, rfl⟩
  have hpre : List.take v.byte_size
      (u64Bytes ((var_check_one 1 l0 v r1 ⟨0, 0⟩
        (List.replicate MATRIX_MAX_DIMENSIONS 0)).1).value) =
      prefixImage v.byte_size r1.lo := by
    rw [hone1]
    split_ifs with hc
    · exact take_u64Bytes v.byte_size ⟨r1.lo, (⟨0, 0⟩ : VarValue).hi⟩ hsz
    · rw [memDiffers_eq_prefixImage v.byte_size hsz] at hc
      simp only [decide_eq_true_eq, not_not] at hc
      rw [take_u64Bytes v.byte_size v.value hsz]
      exact hc.symm
  have hΔ1prop : ∀ ev ∈ (var_check_one 1 l0 v r1 ⟨0, 0⟩
      (List.replicate MATRIX_MAX_DIMENSIONS 0)).2.1,
      ∃ b a i, ev = Event.change 1 l0 v.name v.scope true b a i := by
    rw [hone1]
    split_ifs
    · intro ev hev
      simp only [List.mem_singleton] at hev
      exact ⟨_, _, _, hev⟩
    · intro ev hev
      exact absurd hev (List.not_mem_nil ev)
  have hone2 := var_check_one_scalar 1 l1
    ((var_check_one 1 l0 v r1 ⟨0, 0⟩ (List.replicate MATRIX_MAX_DIMENSIONS 0)).1)
    r2 ⟨0, 0⟩ (List.replicate MATRIX_MAX_DIMENSIONS 0)
    (by rw [hkeep.1]; exact hbase) (by rw [hkeep.2.1]; exact hsz) hkeep.2.2.1
  have hcond : memDiffers
      ((var_check_one 1 l0 v r1 ⟨0, 0⟩
        (List.replicate MATRIX_MAX_DIMENSIONS 0)).1).byte_size
      ⟨r2.lo, (⟨0, 0⟩ : VarValue).hi⟩
      ((var_check_one 1 l0 v r1 ⟨0, 0⟩
        (List.replicate MATRIX_MAX_DIMENSIONS 0)).1).value =
      decide (prefixImage v.byte_size r2.lo ≠ prefixImage v.byte_size r1.lo) := by
    rw [hkeep.2.1, memDiffers_eq_prefixImage v.byte_size hsz]
    have hv1lo : prefixImage v.byte_size
        ((var_check_one 1 l0 v r1 ⟨0, 0⟩
          (List.replicate MATRIX_MAX_DIMENSIONS 0)).1).value.lo =
        prefixImage v.byte_size r1.lo := by
      rw [← hpre, take_u64Bytes v.byte_size _ hsz]
    rw [hv1lo]
  have hΔ2 : (var_check_one 1 l1
      ((var_check_one 1 l0 v r1 ⟨0, 0⟩ (List.replicate MATRIX_MAX_DIMENSIONS 0)).1)
      r2 ⟨0, 0⟩ (List.replicate MATRIX_MAX_DIMENSIONS 0)).2.1 =
      (if prefixImage v.byte_size r2.lo ≠ prefixImage v.byte_size r1.lo then
        [Event.change 1 l1 v.name v.scope true
          (.scalar ((var_check_one 1 l0 v r1 ⟨0, 0⟩
            (List.replicate MATRIX_MAX_DIMENSIONS 0)).1).value)
          (.scalar ⟨r2.lo, 0⟩) none]
       else []) := by
    rw [hone2]
    by_cases hne : prefixImage v.byte_size r2.lo ≠ prefixImage v.byte_size r1.lo
    · have hcb : memDiffers
          ((var_check_one 1 l0 v r1 ⟨0, 0⟩
            (List.replicate MATRIX_MAX_DIMENSIONS 0)).1).byte_size
          ⟨r2.lo, (⟨0, 0⟩ : VarValue).hi⟩
          ((var_check_one 1 l0 v r1 ⟨0, 0⟩
            (List.replicate MATRIX_MAX_DIMENSIONS 0)).1).value = true := by
        rw [hcond]
        exact decide_eq_true hne
      rw [if_pos hcb, if_pos hne]
      simp only [hkeep.2.2.2.1, hkeep.2.2.2.2]
    · have hcb : ¬ (memDiffers
          ((var_check_one 1 l0 v r1 ⟨0, 0⟩
            (List.replicate MATRIX_MAX_DIMENSIONS 0)).1).byte_size
          ⟨r2.lo, (⟨0, 0⟩ : VarValue).hi⟩
          ((var_check_one 1 l0 v r1 ⟨0, 0⟩
            (List.replicate MATRIX_MAX_DIMENSIONS 0)).1).value = true) := by
        rw [hcond]
        simp only [decide_eq_true_eq]
        exact hne
      rw [if_neg hcb, if_neg hne]
  refine ⟨(var_check_one 1 l0 v r1 ⟨0, 0⟩ (List.replicate MATRIX_MAX_DIMENSIONS 0)).2.1,
    ((var_check_one 1 l0 v r1 ⟨0, 0⟩ (List.replicate MATRIX_MAX_DIMENSIONS 0)).1).value,
    _, run_two_ordinary v d l0 l1 l2 r1 r2, hpre, ?_, hΔ1prop⟩
  exact congrArg (fun x =>
    (var_check_one 1 l0 v r1 ⟨0, 0⟩ (List.replicate MATRIX_MAX_DIMENSIONS 0)).2.1 ++ x) hΔ2

/-- C1 counterexample to the original claim: a 4-byte initialized local
"x" holding 3 changes to 4 between the planned stop at line 10 and the
next planned stop at line 20; exactly one change event is emitted for the
transition, but it names line 10 — the line of prev_bp, the FIRST of the
two stops — not the second stop's line 20. -/
theorem change_event_names_previous_stop_cex :
    do_analysis_run
      { context := [[intVarX]]
        depth := 1
        init_vars := false
        prev_line := some 5
        events := [] }
      [Stop.ordinary 10 [⟨3, 0, []⟩], Stop.ordinary 20 [⟨4, 0, []⟩]] =
      .ok { context := [[{ intVarX with value := ⟨4, 0⟩ }]]
            depth := 1
            init_vars := false
            prev_line := some 20
            events := [Event.change 1 10 "x" VLOCAL true (.scalar ⟨3, 0⟩)
              (.scalar ⟨4, 0⟩) none] } ∧
    (10 : Nat) ≠ 20 :=
  ⟨rfl, by decide⟩

/-- Witness for scalar_change_names_first_line: instantiated at the fixture
variable "x" with reads 3 then 4 across stops at lines 10 and 20. -/
theorem scalar_change_names_first_line_witness :
    ∃ (Δ1 : List Event) (w : VarValue) (s' : LoopState),
      do_analysis_run
        { context := [[intVarX]]
          depth := 1
          init_vars := false
          prev_line := some 5
          events := [] }
        [.ordinary 10 [⟨3, 0, []⟩], .ordinary 20 [⟨4, 0, []⟩]] = .ok s' ∧
      List.take intVarX.byte_size (u64Bytes w) =
        prefixImage intVarX.byte_size (ReadVal.lo ⟨3, 0, []⟩) ∧
      s'.events = Δ1 ++
        (if prefixImage intVarX.byte_size (ReadVal.lo ⟨4, 0, []⟩) ≠
            prefixImage intVarX.byte_size (ReadVal.lo ⟨3, 0, []⟩) then
          [Event.change 1 10 intVarX.name intVarX.scope true (.scalar w)
            (.scalar ⟨(ReadVal.lo ⟨4, 0, []⟩), 0⟩) none]
         else []) ∧
      (∀ ev ∈ Δ1, ∃ b a i, ev = Event.change 1 5 intVarX.name intVarX.scope true b a i) :=
  scalar_change_names_first_line intVarX (by decide) (by decide) rfl
    1 5 10 20 ⟨3, 0, []⟩ ⟨4, 0, []⟩

end PBD
